import Mathlib

/-
Verification development for the two-player game-search core
(game.py, strategy.py) and the concrete games (subtract_square.py,
chopsticks.py, stonehenge.py).

Conventions of the shallow embedding:
* Python `int` is embedded as `Int` (arbitrary precision, can go negative).
* A fallible or possibly non-terminating computation is embedded as an
  `Option`-valued function; recursive/iterative searches additionally take a
  fuel parameter, `none` meaning "the computation did not finish within the
  given fuel" or "the Python code raised an exception / returned None"
  (which case applies is noted at each definition).
* Player names: `game.py` restricts the `player` attribute to the two
  strings 'p1'/'p2' (`GameState.__init__` only accepts those), so the
  player is embedded as a two-element inductive type.
* Dictionaries keyed by state strings are embedded as association lists
  (`List (K × Int)`) looked up with `List.lookup`; assignment is `cons`,
  which has the same lookup semantics as Python dict assignment.
* Python's stable `list.sort()` is embedded as a stable insertion sort
  (`sort_by_key`); any two stable ascending sorts agree extensionally,
  so this is faithful to Timsort.
-/

/-- The two player identifiers 'p1' and 'p2' (PLAYERS in game.py). -/
inductive Player where
  | p1
  | p2
deriving DecidableEq, Repr

/-- The string name of a player, as stored in `GameState.player`. -/
def Player.name : Player → String
  | .p1 => "p1"
  | .p2 => "p2"

/-- GameState.get_next_player: PLAYERS[(index + 1) % len(PLAYERS)]. -/
def Player.get_next_player : Player → Player
  | .p1 => .p2
  | .p2 => .p1

/-- Modelled from the spec: the module game_state.py (imported by
strategy.py and stonehenge.py) is not under src/; per spec §3 the
evaluated-score table holds "integer score in {WIN=1, LOSE=-1, (DRAW=0
where applicable)}", and stonehenge.py's own class constants repeat
WIN = 1. -/
def GameState.WIN : Int := 1

/-- Modelled from the spec: LOSE = -1, see `GameState.WIN`. -/
def GameState.LOSE : Int := -1

/-
The generic search core of strategy.py operates on a game object and its
states purely through the following operations, collected in a structure:
`moves` is state.get_possible_moves(), `apply` is state.make_move(m),
`player` is state.get_current_player_name(), `is_over` is
game.is_over(state), `winner s p` is the value of game.is_winner(p) once
game.current_state has been repointed to s (all three concrete games read
only that cursor in is_winner), and `key` is str(state), the memoization
key used by the iterative engine.  The cursor mutation itself is embedded
separately (see the cursor-threaded engine further down).
-/

/-- The operations strategy.py uses on a (game, state) pair. -/
structure GameI (S M K : Type) where
  moves : S → List M
  apply : S → M → S
  player : S → Player
  is_over : S → Bool
  winner : S → Player → Bool
  key : S → K

/-- get_score(game, state, player): repoints game.current_state to state,
then returns WIN if game.is_winner(player) else LOSE.  The cursor effect is
dealt with in the cursor-threaded embedding below; the returned value is
this pure function of (state, player). -/
def get_score {S M K : Type} (g : GameI S M K) (s : S) (p : Player) : Int :=
  if g.winner s p then GameState.WIN else GameState.LOSE

/-- Evaluate a fallible function over a list from left to right and
collect the results; the first failure (exception or exhausted fuel)
aborts the whole evaluation, like a Python comprehension whose items can
raise. -/
def map_option {A B : Type} (f : A → Option B) : List A → Option (List B)
  | [] => some []
  | a :: t => do
    let b ← f a
    let bs ← map_option f t
    some (b :: bs)

/-- recursive_minimax_scores(game, state, player), with fuel.
`none` means the recursion did not finish within the fuel, or reached a
non-terminal state with no moves (where Python's max([])/min([]) raises
ValueError); `List.max?`/`List.min?` are `none` exactly on []. -/
def recursive_minimax_scores {S M K : Type} (g : GameI S M K) (p : Player) :
    Nat → S → Option Int
  | 0, _ => none
  | fuel + 1, s =>
    if g.is_over s then some (get_score g s p)
    else do
      let scores ← map_option
        (fun m => recursive_minimax_scores g p fuel (g.apply s m)) (g.moves s)
      if g.player s = p then scores.max? else scores.min?

/-- The selection loop of recursive_minimax: best_move = None,
top_score = -2, then for each (move, score) keep the move if its score is
strictly greater than top_score. -/
def select_best {M : Type} (scored : List (M × Int)) : Option M :=
  (scored.foldl
    (fun acc ms => if ms.2 > acc.2 then (some ms.1, ms.2) else acc)
    ((none : Option M), (-2 : Int))).1

/-- recursive_minimax(game): scores every child of game.current_state from
the perspective of the player to move, then picks the first strictly
improving move.  Returns `none` when Python would return None (no moves) or
when the fuel runs out. -/
def recursive_minimax {S M K : Type} (g : GameI S M K) (fuel : Nat) (state : S) :
    Option M := do
  let p := g.player state
  let scored ← map_option
    (fun m => (recursive_minimax_scores g p fuel (g.apply state m)).map (fun v => (m, v)))
    (g.moves state)
  select_best scored

/-
The iterative engine (strategy.py lines 106-181).  GameTreeNode carries
(game, state, player); game and player are fixed throughout one search, so
a node is embedded as its state, and the functions below take g and p as
parameters.  Python's stable list.sort() is embedded by the stable
insertion sort `sort_by_key` (sorting by an integer key function, which
covers both plain `scores.sort()` with key = id and
`moves.sort(key=lambda item: evaluated_state[str(item[1].state)])`).
-/

/-- Insert `a` into `l` in front of the first element whose key is not
smaller; later elements with an equal key stay behind `a`, which makes the
sort stable. -/
def insert_by_key {A : Type} (f : A → Int) (a : A) : List A → List A
  | [] => [a]
  | b :: t => if f a ≤ f b then a :: b :: t else b :: insert_by_key f a t

/-- Stable ascending insertion sort by an integer key; extensionally equal
to Python's stable list.sort(key=...). -/
def sort_by_key {A : Type} (f : A → Int) : List A → List A
  | [] => []
  | a :: t => insert_by_key f a (sort_by_key f t)

/-- GameTreeNode.children: one child state per possible move, in move
enumeration order. -/
def children {S M K : Type} (g : GameI S M K) (s : S) : List S :=
  (g.moves s).map (g.apply s)

/-- GameTreeNode.get_score(evaluated_state): look every child's key up in
the memo table; if any child is missing return None, otherwise sort the
scores ascending and return the last (current player = perspective player,
i.e. maximize) or the first (minimize).  `getLast?`/`head?` are `none` on
an empty score list, where Python's scores[-1]/scores[0] raises IndexError
(the difference is invisible at the Option level, see `_evaluate_and_add`).
-/
def node_get_score {S M K : Type} [DecidableEq K] (g : GameI S M K) (p : Player)
    (evaluated_state : List (K × Int)) (s : S) : Option Int := do
  let scores ← map_option (fun c => evaluated_state.lookup (g.key c)) (children g s)
  let sorted := sort_by_key id scores
  if g.player s = p then sorted.getLast? else sorted.head?

/-- _evaluate_and_add(node, stack, evaluated_state): a terminal node is
scored directly and memoized; a non-terminal node is memoized when all its
children are memoized, and pushed back onto the stack otherwise.  Returns
the updated (stack, evaluated_state). -/
def _evaluate_and_add {S M K : Type} [DecidableEq K] (g : GameI S M K) (p : Player)
    (n : S) (stack : List S) (evaluated_state : List (K × Int)) :
    List S × List (K × Int) :=
  if g.is_over n then (stack, (g.key n, get_score g n p) :: evaluated_state)
  else
    match node_get_score g p evaluated_state n with
    | some score => (stack, (g.key n, score) :: evaluated_state)
    | none => (stack ++ [n], evaluated_state)

/-- One iteration of the while loop of iterative_minimax_strategy applied
to the popped node `n`: _evaluate_and_add on `n`, then _evaluate_and_add
on every child of `n` that is not yet memoized (the not_evaluated list is
computed once, against the table as it stands after the first call, and
each child is then processed against the evolving table). -/
def iter_step {S M K : Type} [DecidableEq K] (g : GameI S M K) (p : Player)
    (n : S) (stack : List S) (evaluated_state : List (K × Int)) :
    List S × List (K × Int) :=
  let sm1 := _evaluate_and_add g p n stack evaluated_state
  let not_evaluated := (children g n).filter (fun c => (sm1.2.lookup (g.key c)).isNone)
  not_evaluated.foldl (fun sm c => _evaluate_and_add g p c sm.1 sm.2) sm1

/-- The body of the while loop, iterated.  The loop guard in the source is
`stack_length > 0`, where stack_length is computed ONCE before the loop
and never updated, so once the loop is entered its condition is
permanently true and it can never exit normally: it stops only when
`stack.pop()` raises IndexError on the drained stack.  Accordingly
`some es` here means the loop has CRASHED after finitely many
iterations — `es` is the contents of evaluated_state at the instant of
that IndexError (observable on the objects, never returned by the
source) — and `none` means the fuel bound was reached with the loop still
running (e.g. spinning on a cycle of states). -/
def iter_loop {S M K : Type} [DecidableEq K] (g : GameI S M K) (p : Player) :
    Nat → List S → List (K × Int) → Option (List (K × Int))
  | 0, stack, evaluated_state => if stack.isEmpty then some evaluated_state else none
  | fuel + 1, stack, evaluated_state =>
    match stack.getLast? with
    | none => some evaluated_state
    | some n =>
      let sm := iter_step g p n stack.dropLast evaluated_state
      iter_loop g p fuel sm.1 sm.2

/-- The memo table built by iterative_minimax_strategy(game)'s loop from
the root state, observed at the instant the loop dies: the stack is
seeded with the root's children and the loop runs until its pop raises
IndexError on the drained stack.  This is not a return value of the
source — with a non-empty seed stack the loop never terminates normally —
but the contents of evaluated_state when the crash happens. -/
def iterative_minimax_crash_memo {S M K : Type} [DecidableEq K]
    (g : GameI S M K) (fuel : Nat) (state : S) : Option (List (K × Int)) :=
  let p := g.player state
  let seeds := (g.moves state).map (g.apply state)
  iter_loop g p fuel seeds []

/-- iterative_minimax_strategy(game).  The loop guard reads the stale
stack_length, so when the root has at least one legal move the loop is
entered and never exits normally: the function dies with IndexError at
the drained-stack pop (iter_loop = some, the crash) or runs forever
(iter_loop = none); the exception propagates, the moves.sort()/moves[-1]
selection on the last two lines is unreachable, and no move is ever
returned — both outcomes are `none`.  When the root has no legal moves
the loop is skipped (stack_length = 0) and execution continues at the
selection with an empty memo and an empty move list, raising IndexError
at moves[-1]: also `none`, through the selection code itself. -/
def iterative_minimax_strategy {S M K : Type} [DecidableEq K] (g : GameI S M K)
    (fuel : Nat) (state : S) : Option M :=
  let moves := (g.moves state).map (fun m => (m, g.apply state m))
  let stack := moves.map (fun x => x.2)
  if stack.isEmpty then do
    let scored ← map_option
      (fun mc => (([] : List (K × Int)).lookup (g.key mc.2)).map
        (fun v => (mc.1, mc.2, v)))
      moves
    ((sort_by_key (fun x => x.2.2) scored).getLast?).map (·.1)
  else
    (iter_loop g (g.player state) fuel stack []).bind (fun _ => none)

/-- Binding any Option into the constant none gives none (an exception
inside the loop propagates whatever the loop produced). -/
theorem bind_const_none {A B : Type} (o : Option A) :
    o.bind (fun _ => (none : Option B)) = none := by cases o <;> rfl

/-- With at least one legal move the iterative engine never returns a
move, whatever the fuel: the stale loop guard turns every loop exit into
an IndexError before the selection code is reached. -/
theorem iterative_strategy_none_of_moves {S M K : Type} [DecidableEq K]
    (g : GameI S M K) (fuel : Nat) (state : S) (hmv : g.moves state ≠ []) :
    iterative_minimax_strategy g fuel state = none := by
  unfold iterative_minimax_strategy
  have hne : (((g.moves state).map (fun m => (m, g.apply state m))).map
      (fun x => x.2)).isEmpty = false := by
    rcases hm : g.moves state with _ | ⟨a, t⟩
    · exact absurd hm hmv
    · rfl
  simp only [hne, Bool.false_eq_true, if_false]
  exact bind_const_none _

/-
subtract_square.py: the number-subtraction game.
-/

/-- SubtractSquareGameState: the player to move and the current value. -/
structure SubtractSquareGameState where
  player : Player
  number : Int
deriving DecidableEq, Repr

/-- str(state): '[player = {}, number = {}]'. -/
def SubtractSquareGameState.str (s : SubtractSquareGameState) : String :=
  "[player = " ++ s.player.name ++ ", number = " ++ toString s.number ++ "]"

/-- get_possible_moves: the squares 1, 4, 9, ... not exceeding the current
value (the source's `while i ** 2 <= self.number` loop starting at i = 1,
written as a filter over the finitely many candidate bases i ≤ number; a
base with i * i ≤ number satisfies i ≤ number, so none is missed, and the
squares are produced in the same increasing order). -/
def SubtractSquareGameState.get_possible_moves (s : SubtractSquareGameState) :
    List Int :=
  (List.range (s.number.toNat + 1)).filterMap
    (fun i => if 1 ≤ i ∧ ((i : Int) * i ≤ s.number) then some ((i : Int) * i) else none)

/-- make_move: subtract the chosen square, other player to move.  No
legality check is performed in the source. -/
def SubtractSquareGameState.make_move (s : SubtractSquareGameState)
    (move_to_make : Int) : SubtractSquareGameState :=
  ⟨s.player.get_next_player, s.number - move_to_make⟩

/-- SubtractSquareGame.is_over(state): no possible moves remain. -/
def SubtractSquareGame.is_over (state : SubtractSquareGameState) : Bool :=
  state.get_possible_moves.length == 0

/-- SubtractSquareGame.is_winner(player): reads only the game's cursor
(current_state); phrased as the pure function of that cursor. -/
def SubtractSquareGame.is_winner (current_state : SubtractSquareGameState)
    (player : Player) : Bool :=
  SubtractSquareGame.is_over current_state && decide (current_state.player ≠ player)

/-- The subtract-square game packaged for the search core. -/
def subtractSquare : GameI SubtractSquareGameState Int String where
  moves := SubtractSquareGameState.get_possible_moves
  apply := SubtractSquareGameState.make_move
  player := SubtractSquareGameState.player
  is_over := SubtractSquareGame.is_over
  winner := SubtractSquareGame.is_winner
  key := SubtractSquareGameState.str

/-
chopsticks.py: the finger-transfer game.
-/

/-- One player's two hands (the inner dict {'l': .., 'r': ..}). -/
structure Hands where
  l : Nat
  r : Nat
deriving DecidableEq, Repr

/-- hands[c] for a hand character.  Python raises KeyError on characters
other than 'l'/'r'; those never occur in moves from get_possible_moves, and
fall through to the right hand here. -/
def Hands.val (h : Hands) (c : Char) : Nat :=
  if c = 'l' then h.l else h.r

/-- Functional update of the hand selected by a character. -/
def Hands.upd (h : Hands) (c : Char) (v : Nat) : Hands :=
  if c = 'l' then { h with l := v } else { h with r := v }

/-- ChopsticksGameState: the player to move and the hands dictionary
(one `Hands` per player). -/
structure ChopsticksGameState where
  player : Player
  p1_hands : Hands
  p2_hands : Hands
deriving DecidableEq, Repr

/-- self.hands[p]. -/
def ChopsticksGameState.hands (s : ChopsticksGameState) : Player → Hands
  | .p1 => s.p1_hands
  | .p2 => s.p2_hands

/-- get_possible_moves: for each of the current player's hands that is
non-zero, the two moves from that hand, in the source's loop order
ll, lr, rl, rr. -/
def ChopsticksGameState.get_possible_moves (s : ChopsticksGameState) :
    List String :=
  let current_hands := s.hands s.player
  (if current_hands.l > 0 then ["ll", "lr"] else []) ++
    (if current_hands.r > 0 then ["rl", "rr"] else [])

/-- make_move: add the current player's from-hand value to the enemy's
to-hand, modulo 5, and hand the turn to the enemy.  No legality check is
performed in the source.  A move string that is not exactly two characters
makes Python raise IndexError; that case (never produced by
get_possible_moves) is embedded as returning the state unchanged. -/
def ChopsticksGameState.make_move (s : ChopsticksGameState)
    (move_to_make : String) : ChopsticksGameState :=
  match move_to_make.toList with
  | [frm, tgt] =>
    let player := s.player
    let enemy := s.player.get_next_player
    let new_val := ((s.hands enemy).val tgt + (s.hands player).val frm) % 5
    match enemy with
    | .p1 => ⟨enemy, s.p1_hands.upd tgt new_val, s.p2_hands⟩
    | .p2 => ⟨enemy, s.p1_hands, s.p2_hands.upd tgt new_val⟩
  | _ => s

/-- str(state): '[player = {}, hands = p1: l-r, p2: l-r]' (the hands dict
is built iterating PLAYERS, so its items appear in the order p1, p2). -/
def ChopsticksGameState.str (s : ChopsticksGameState) : String :=
  "[player = " ++ s.player.name ++ ", hands = p1: " ++ toString s.p1_hands.l ++
    "-" ++ toString s.p1_hands.r ++ ", p2: " ++ toString s.p2_hands.l ++ "-" ++
    toString s.p2_hands.r ++ "]"

/-- ChopsticksGame.is_over(state): some player has both hands at 0
(the source loops over PLAYERS). -/
def ChopsticksGame.is_over (state : ChopsticksGameState) : Bool :=
  (state.p1_hands.l == 0 && state.p1_hands.r == 0) ||
    (state.p2_hands.l == 0 && state.p2_hands.r == 0)

/-- ChopsticksGame.is_winner(player): the game is over on the cursor state
and the enemy of `player` has both hands at 0; reads only the cursor,
phrased as the pure function of it. -/
def ChopsticksGame.is_winner (current_state : ChopsticksGameState)
    (player : Player) : Bool :=
  let enemy := player.get_next_player
  ChopsticksGame.is_over current_state &&
    (current_state.hands enemy).l == 0 && (current_state.hands enemy).r == 0

/-- ChopsticksGame.__init__: every hand starts at 1. -/
def ChopsticksGame.init (is_p1_turn : Bool) : ChopsticksGameState :=
  ⟨if is_p1_turn then .p1 else .p2, ⟨1, 1⟩, ⟨1, 1⟩⟩

/-- The chopsticks game packaged for the search core. -/
def chopsticks : GameI ChopsticksGameState String String where
  moves := ChopsticksGameState.get_possible_moves
  apply := ChopsticksGameState.make_move
  player := ChopsticksGameState.player
  is_over := ChopsticksGame.is_over
  winner := ChopsticksGame.is_winner
  key := ChopsticksGameState.str

/-
Reachability through the search's transition steps (a child is the result
of applying one possible move).
-/

/-- States reachable from `root` through one or more possible-move
applications. -/
inductive Reach1 {S M K : Type} (g : GameI S M K) (root : S) : S → Prop where
  | seed {c} : c ∈ children g root → Reach1 g root c
  | step {s c} : Reach1 g root s → c ∈ children g s → Reach1 g root c

/-- States reachable from `root` through zero or more possible-move
applications. -/
def Reach {S M K : Type} (g : GameI S M K) (root : S) (s : S) : Prop :=
  s = root ∨ Reach1 g root s

/-- Applying any move keeps all four hand values at most 4: the touched
hand is reduced modulo 5 and the others are unchanged (and a malformed
move string leaves the state unchanged). -/
theorem ChopsticksGameState.make_move_hands_le (s : ChopsticksGameState)
    (m : String)
    (h : s.p1_hands.l ≤ 4 ∧ s.p1_hands.r ≤ 4 ∧ s.p2_hands.l ≤ 4 ∧ s.p2_hands.r ≤ 4) :
    (s.make_move m).p1_hands.l ≤ 4 ∧ (s.make_move m).p1_hands.r ≤ 4 ∧
      (s.make_move m).p2_hands.l ≤ 4 ∧ (s.make_move m).p2_hands.r ≤ 4 := by
  unfold ChopsticksGameState.make_move
  rcases hm : m.toList with _ | ⟨frm, _ | ⟨tgt, _ | _⟩⟩ <;>
    simp only []
  · exact h
  · exact h
  · have h5 : ∀ x : Nat, x % 5 ≤ 4 := fun x =>
      Nat.lt_succ_iff.1 (Nat.mod_lt x (by norm_num))
    cases hp : s.player <;>
      simp only [Player.get_next_player, Hands.upd] <;>
      split <;>
      simp_all [Hands.val]
  · exact h

/-- C10: in the chopsticks game, every state reachable from the initial
state (all hands 1) by applying moves from get_possible_moves has each of
the four hand values in {0, ..., 4}, because make_move reduces the touched
hand modulo 5; in particular a hand reaching exactly five fingers becomes
0: from the reachable state [p1 to move, p1: 3-1, p2: 2-1] the move 'll'
makes p2's left hand (2 + 3) % 5 = 0. -/
theorem chopsticks_reachable_hands_le_four (b : Bool) (s : ChopsticksGameState)
    (h : Reach chopsticks (ChopsticksGame.init b) s) :
    (s.p1_hands.l ≤ 4 ∧ s.p1_hands.r ≤ 4 ∧ s.p2_hands.l ≤ 4 ∧ s.p2_hands.r ≤ 4) ∧
      (Reach chopsticks (ChopsticksGame.init true) ⟨.p1, ⟨3, 1⟩, ⟨2, 1⟩⟩ ∧
        ChopsticksGameState.make_move ⟨.p1, ⟨3, 1⟩, ⟨2, 1⟩⟩ "ll" = ⟨.p2, ⟨3, 1⟩, ⟨0, 1⟩⟩) := by
  constructor
  · rcases h with rfl | h1
    · cases b <;> simp [ChopsticksGame.init]
    · induction h1 with
      | seed hc =>
        rcases List.mem_map.1 hc with ⟨m, _, rfl⟩
        refine ChopsticksGameState.make_move_hands_le _ _ ?_
        cases b <;> simp [ChopsticksGame.init]
      | step _ hc ih =>
        rcases List.mem_map.1 hc with ⟨m, _, rfl⟩
        exact ChopsticksGameState.make_move_hands_le _ _ ih
  · have h1 : Reach1 chopsticks (ChopsticksGame.init true)
        (⟨.p2, ⟨1, 1⟩, ⟨2, 1⟩⟩ : ChopsticksGameState) :=
      Reach1.seed (by decide)
    have h2 : Reach1 chopsticks (ChopsticksGame.init true)
        (⟨.p1, ⟨3, 1⟩, ⟨2, 1⟩⟩ : ChopsticksGameState) :=
      Reach1.step h1 (by decide)
    exact ⟨Or.inr h2, by decide⟩

/-- Witness for C10 at the initial state itself. -/
theorem chopsticks_reachable_hands_le_four_witness :
    (((ChopsticksGame.init true).p1_hands.l ≤ 4 ∧
        (ChopsticksGame.init true).p1_hands.r ≤ 4 ∧
        (ChopsticksGame.init true).p2_hands.l ≤ 4 ∧
        (ChopsticksGame.init true).p2_hands.r ≤ 4) ∧
      (Reach chopsticks (ChopsticksGame.init true) ⟨.p1, ⟨3, 1⟩, ⟨2, 1⟩⟩ ∧
        ChopsticksGameState.make_move ⟨.p1, ⟨3, 1⟩, ⟨2, 1⟩⟩ "ll" = ⟨.p2, ⟨3, 1⟩, ⟨0, 1⟩⟩)) :=
  chopsticks_reachable_hands_le_four true (ChopsticksGame.init true) (Or.inl rfl)

/-
stonehenge.py: the hexagonal line-claiming board game.  Cells and claim
markers are single characters.
-/

/-- NOT_USED = 'x'. -/
def NOT_USED : Char := 'x'

/-- P1_CLAIMED = '1'. -/
def P1_CLAIMED : Char := '1'

/-- P2_CLAIMED = '2'. -/
def P2_CLAIMED : Char := '2'

/-- NOT_CLAIMED = '@'. -/
def NOT_CLAIMED : Char := '@'

/-- get_row_lines: the rows of the grid without the not-used cells. -/
def get_row_lines (nodes : List (List Char)) : List (List Char) :=
  nodes.map (fun line => line.filter (fun cell => cell ≠ NOT_USED))

/-- add_to_line: append nodes[x][y] to the line when both indices are below
len(nodes) and the cell is used (the x < 0 / y < 0 guards of the source are
void for natural-number indices). -/
def add_to_line (nodes : List (List Char)) (x y : Nat) (line : List Char) :
    List Char :=
  if x ≥ nodes.length then line
  else if y ≥ nodes.length then line
  else
    let cell := (nodes.getD x []).getD y NOT_USED
    if cell = NOT_USED then line else line ++ [cell]

/-- get_down_left_lines: the anti-diagonals i + j = sum_up of the grid,
keeping only the non-empty ones. -/
def get_down_left_lines (nodes : List (List Char)) : List (List Char) :=
  let size := nodes.length
  ((List.range (2 * size - 2)).map (fun sum_up =>
      (List.range (sum_up + 1)).foldl
        (fun line i => add_to_line nodes i (sum_up - i) line) [])).filter
    (fun line => line.length > 0)

/-- get_down_right_lines: the columns of the grid (appended
unconditionally, as in the source). -/
def get_down_right_lines (nodes : List (List Char)) : List (List Char) :=
  let size := nodes.length
  (List.range size).map (fun j =>
    (List.range size).foldl (fun line i => add_to_line nodes i j line) [])

/-- The counter of get_claimer/get_winner: how many cells of the line carry
the given marker. -/
def count_claimed (line : List Char) (c : Char) : Nat :=
  (line.filter (fun cell => cell = c)).length

/-- get_max_by_value, applied to the two counter entries. -/
def get_max_by_value (count1 count2 : Nat) : Char :=
  if count1 > count2 then P1_CLAIMED
  else if count2 > count1 then P2_CLAIMED
  else NOT_CLAIMED

/-- get_claimer: the player holding at least half of the line, if the
counts are not tied.  The source compares counter[max_player] >=
len(line) / 2 with Python's exact float halving; doubling both sides gives
the equivalent integer comparison used here. -/
def get_claimer (line : List Char) : Char :=
  let count1 := count_claimed line P1_CLAIMED
  let count2 := count_claimed line P2_CLAIMED
  let max_player := get_max_by_value count1 count2
  if max_player ≠ NOT_CLAIMED ∧
      2 * (if max_player = P1_CLAIMED then count1 else count2) ≥ line.length then
    max_player
  else NOT_CLAIMED

/-- get_update_lines: claim every still-unclaimed lay line whose current
cells now determine a claimer. -/
def get_update_lines (claim_marks : List Char) (lines : List (List Char)) :
    List Char :=
  (List.range lines.length).foldl
    (fun updated i =>
      if updated.getD i NOT_USED = NOT_CLAIMED ∧
          get_claimer (lines.getD i []) ≠ NOT_CLAIMED then
        updated.set i (get_claimer (lines.getD i []))
      else updated)
    claim_marks

/-- StoneHengeState: whose turn it is, the cell grid, and the claim marks
of the three line families.  The class constants WIN = 1, LOSE = -1,
DRAW = 0 coincide with `GameState.WIN`/`GameState.LOSE`. -/
structure StoneHengeState where
  p1_turn : Bool
  nodes : List (List Char)
  row_line_claimers : List Char
  left_line_claimers : List Char
  right_line_claimers : List Char
deriving DecidableEq, Repr

/-- Modelled from the spec: get_current_player_name for StoneHengeState is
inherited from the module game_state.py, which is not under src/; its
GameState stores is_p1_turn, and per spec §3 the acting player is one of
the two fixed identifiers, so p1_turn = True means 'p1' is to move. -/
def StoneHengeState.get_current_player_name (s : StoneHengeState) : Player :=
  if s.p1_turn then .p1 else .p2

/-- make_move: claim every cell equal to `move` for the player to move
(each letter occurs once on a well-formed board; an unknown letter claims
nothing), update the three claim-mark lists from the new grid, and flip
the turn.  States are values here, so the source's copy of the grid is
implicit. -/
def StoneHengeState.make_move (s : StoneHengeState) (move : Char) :
    StoneHengeState :=
  let updated_nodes := s.nodes.map (fun row => row.map (fun cell =>
    if cell = move then (if s.p1_turn then P1_CLAIMED else P2_CLAIMED)
    else cell))
  ⟨!s.p1_turn, updated_nodes,
    get_update_lines s.row_line_claimers (get_row_lines updated_nodes),
    get_update_lines s.left_line_claimers (get_down_left_lines updated_nodes),
    get_update_lines s.right_line_claimers (get_down_right_lines updated_nodes)⟩

/-- get_winner: None on a tie (both players hold exactly half of the lay
lines), otherwise the first player holding at least half, if any.  The
source compares the counts against len(claimers) / 2 with Python's exact
float halving; doubling both sides gives the equivalent integer
comparisons used here.  (The counter of the source indexes only markers
that occur as dict keys; claim marks are always among '@', '1', '2' for
states built by the game's own operations, which is all this development
uses.) -/
def StoneHengeState.get_winner (s : StoneHengeState) : Option Player :=
  let claimers := s.row_line_claimers ++ s.left_line_claimers ++
    s.right_line_claimers
  let count1 := count_claimed claimers P1_CLAIMED
  let count2 := count_claimed claimers P2_CLAIMED
  if count1 = count2 ∧ 2 * count1 = claimers.length then none
  else if 2 * count1 ≥ claimers.length then some .p1
  else if 2 * count2 ≥ claimers.length then some .p2
  else none

/-- get_possible_moves: empty once there is a winner, otherwise every cell
that is not 'x', '1' or '2', in row-major order. -/
def StoneHengeState.get_possible_moves (s : StoneHengeState) : List Char :=
  if (s.get_winner).isSome then []
  else
    (s.nodes.foldl (fun moves row =>
      moves ++ row.filter
        (fun cell => cell ∉ [NOT_USED, P1_CLAIMED, P2_CLAIMED])) [])

/-- The loop of rough_outcome: score each child recursively and stop at the
first child whose score is 1 (the caller then returns -1). -/
def rough_find_one (child_score : Char → Option ℚ) : List Char → Option Bool
  | [] => some false
  | m :: rest => do
    let score ← child_score m
    if score = 1 then some true else rough_find_one child_score rest

/-- rough_outcome, with fuel (`none` = the fuel ran out; the source
recursion has no depth bound).  The final expression
max([1, counter[key] / len(claimers) / 2]) * 2 - 1 is embedded with exact
rational arithmetic (all values reached are exact in binary floating point
too, since the max is always 1 - see `rough_outcome_values`); an empty
claimers list would make the source raise ZeroDivisionError, embedded as
`none`.  The source sets key = P1_CLAIMED under `if self.p1_turn` and then
unconditionally reassigns key = P2_CLAIMED (stonehenge.py lines 367-369),
so key is always P2_CLAIMED. -/
def StoneHengeState.rough_outcome : Nat → StoneHengeState → Option ℚ
  | 0, _ => none
  | fuel + 1, s =>
    if s.get_winner = some s.get_current_player_name then some 1
    else if (s.get_winner).isSome ∧
        s.get_winner ≠ some s.get_current_player_name then
      some (-1)
    else do
      let found ← rough_find_one
        (fun m => StoneHengeState.rough_outcome fuel (s.make_move m))
        s.get_possible_moves
      if found then some (-1)
      else
        let claimers := s.row_line_claimers ++ s.left_line_claimers ++
          s.right_line_claimers
        let key := P2_CLAIMED
        if claimers.length = 0 then none
        else
          some (max 1 ((count_claimed claimers key : ℚ) /
            (claimers.length : ℚ) / 2) * 2 - 1)

/-- A non-terminal side-1 stonehenge position with p1 to move: cells A, B,
C are free, lay lines r1 and ri1 are already claimed by p2.  Claiming A
claims r0, l0 and ri0 for p1 (3 of the 6 lines), an immediate win. -/
def henge_mover_win_state : StoneHengeState :=
  ⟨true, [['A', 'B'], ['C', 'x']], ['@', '2'], ['@', '@'], ['@', '2']⟩


/-- C7 counterexample: from `henge_mover_win_state` (non-terminal: no
winner, moves A, B, C) the move A gives the mover p1 an immediate win, and
move A's child is terminal, so not every move leads to a state from which
the opponent has an immediate winning move; yet rough_outcome returns -1,
not +1 (claiming B hands p2 a position in which every reply wins
immediately for p2, whose rough_outcome is therefore 1, which makes the
loop return -1). -/
theorem rough_outcome_not_plus_one_on_mover_win :
    henge_mover_win_state.get_winner = none ∧
      henge_mover_win_state.get_possible_moves = ['A', 'B', 'C'] ∧
      (henge_mover_win_state.make_move 'A').get_winner =
        some henge_mover_win_state.get_current_player_name ∧
      (henge_mover_win_state.make_move 'A').get_possible_moves = [] ∧
      StoneHengeState.rough_outcome 10 henge_mover_win_state = some (-1) := by
  refine ⟨by decide, by decide, by decide, by decide, ?_⟩
  -- literal values of the relevant successor states
  have hB1 : henge_mover_win_state.make_move 'B' =
      ⟨false, [['A', '1'], ['C', 'x']], ['1', '2'], ['@', '1'], ['@', '2']⟩ := by
    decide
  -- the child after move A: p1 has won, p2 to move
  have hA : StoneHengeState.rough_outcome 9 (henge_mover_win_state.make_move 'A') =
      some (-1) := by
    rw [show (9 : Nat) = 8 + 1 from rfl, StoneHengeState.rough_outcome]
    have h1 : (henge_mover_win_state.make_move 'A').get_winner = some .p1 := by decide
    have h2 : (henge_mover_win_state.make_move 'A').get_current_player_name = .p2 := by
      decide
    simp [h1, h2]
  -- the grandchildren after B then A / B then C: p2 has won, p1 to move
  have hBA : StoneHengeState.rough_outcome 8
      ((henge_mover_win_state.make_move 'B').make_move 'A') = some (-1) := by
    rw [show (8 : Nat) = 7 + 1 from rfl, StoneHengeState.rough_outcome]
    have h1 : ((henge_mover_win_state.make_move 'B').make_move 'A').get_winner =
        some .p2 := by decide
    have h2 : ((henge_mover_win_state.make_move 'B').make_move 'A').get_current_player_name =
        .p1 := by decide
    simp [h1, h2]
  have hBC : StoneHengeState.rough_outcome 8
      ((henge_mover_win_state.make_move 'B').make_move 'C') = some (-1) := by
    rw [show (8 : Nat) = 7 + 1 from rfl, StoneHengeState.rough_outcome]
    have h1 : ((henge_mover_win_state.make_move 'B').make_move 'C').get_winner =
        some .p2 := by decide
    have h2 : ((henge_mover_win_state.make_move 'B').make_move 'C').get_current_player_name =
        .p1 := by decide
    simp [h1, h2]
  -- the child after move B: no winner, both replies score -1, so the final
  -- formula runs: max(1, 2/6/2) * 2 - 1 = 1
  have hB : StoneHengeState.rough_outcome 9 (henge_mover_win_state.make_move 'B') =
      some 1 := by
    rw [show (9 : Nat) = 8 + 1 from rfl, StoneHengeState.rough_outcome]
    have hw : (henge_mover_win_state.make_move 'B').get_winner = none := by decide
    have hm : (henge_mover_win_state.make_move 'B').get_possible_moves = ['A', 'C'] := by
      decide
    rw [hw, hm]
    simp only [rough_find_one, hBA, hBC, Option.some_bind]
    have hcnt : (List.filter (fun cell => decide (cell = '2'))
        ['1', '2', '@', '1', '@', '2']).length = 2 := by decide
    have hmax : (1 : ℚ) ⊔ (((2 : ℕ) : ℚ) / 6 / 2) = 1 :=
      max_eq_left (by norm_num)
    norm_num [hB1, count_claimed, NOT_CLAIMED, P2_CLAIMED, hcnt, hmax]
  -- the root: no winner; the loop sees score -1 for A, then score 1 for B
  -- and returns -1
  rw [show (10 : Nat) = 9 + 1 from rfl, StoneHengeState.rough_outcome]
  have hw : henge_mover_win_state.get_winner = none := by decide
  have hm : henge_mover_win_state.get_possible_moves = ['A', 'B', 'C'] := by decide
  rw [hw, hm]
  simp [rough_find_one, hA, hB]

/-- C7 amended: rough_outcome never returns an intermediate claim-progress
value: every value it produces is 1 or -1, because the final expression
max([1, counter / len / 2]) * 2 - 1 always evaluates to 1 (the quotient is
at most 1/2). -/
theorem rough_outcome_values (fuel : Nat) (s : StoneHengeState) (v : ℚ)
    (h : StoneHengeState.rough_outcome fuel s = some v) : v = 1 ∨ v = -1 := by
  match fuel with
  | 0 => simp [StoneHengeState.rough_outcome] at h
  | fuel + 1 =>
    unfold StoneHengeState.rough_outcome at h
    split at h
    · exact Or.inl (Option.some.inj h).symm
    split at h
    · exact Or.inr (Option.some.inj h).symm
    cases hf : rough_find_one
        (fun m => StoneHengeState.rough_outcome fuel (s.make_move m))
        s.get_possible_moves with
    | none => rw [hf] at h; simp at h
    | some found =>
      rw [hf] at h
      cases found with
      | true => exact Or.inr (Option.some.inj h).symm
      | false =>
      replace h : (if (s.row_line_claimers ++ s.left_line_claimers ++
          s.right_line_claimers).length = 0 then none
        else some ((max 1 ((count_claimed (s.row_line_claimers ++
          s.left_line_claimers ++ s.right_line_claimers) P2_CLAIMED : ℚ) /
          ((s.row_line_claimers ++ s.left_line_claimers ++
            s.right_line_claimers).length : ℚ) / 2)) * 2 - 1)) = some v := h
      split at h
      · exact absurd h (by simp)
      next hlen =>
        refine Or.inl ?_
        have hc : count_claimed (s.row_line_claimers ++ s.left_line_claimers ++
            s.right_line_claimers) P2_CLAIMED ≤
            (s.row_line_claimers ++ s.left_line_claimers ++
              s.right_line_claimers).length :=
          List.length_filter_le _ _
        have hpos : (0 : ℚ) < ((s.row_line_claimers ++ s.left_line_claimers ++
            s.right_line_claimers).length : ℚ) := by
          exact_mod_cast Nat.pos_of_ne_zero hlen
        have hx : ((count_claimed (s.row_line_claimers ++ s.left_line_claimers ++
            s.right_line_claimers) P2_CLAIMED : ℚ) /
            ((s.row_line_claimers ++ s.left_line_claimers ++
              s.right_line_claimers).length : ℚ)) / 2 ≤ 1 := by
          rw [div_div, div_le_one (by positivity)]
          have : (count_claimed (s.row_line_claimers ++ s.left_line_claimers ++
              s.right_line_claimers) P2_CLAIMED : ℚ) ≤
              ((s.row_line_claimers ++ s.left_line_claimers ++
                s.right_line_claimers).length : ℚ) := by exact_mod_cast hc
          nlinarith
        have := Option.some.inj h
        rw [max_eq_left hx] at this
        linarith [this]

/-- Witness for C7's amended theorem at `henge_mover_win_state`, whose
rough_outcome is computed in `rough_outcome_not_plus_one_on_mover_win`'s
chain; here the value at the terminal child of move A is used. -/
theorem rough_outcome_values_witness :
    (∃ v : ℚ, StoneHengeState.rough_outcome 9
        (henge_mover_win_state.make_move 'A') = some v ∧ (v = 1 ∨ v = -1)) := by
  have hA : StoneHengeState.rough_outcome 9 (henge_mover_win_state.make_move 'A') =
      some (-1) := by
    rw [show (9 : Nat) = 8 + 1 from rfl, StoneHengeState.rough_outcome]
    have h1 : (henge_mover_win_state.make_move 'A').get_winner = some .p1 := by decide
    have h2 : (henge_mover_win_state.make_move 'A').get_current_player_name = .p2 := by
      decide
    simp [h1, h2]
  exact ⟨-1, hA, rough_outcome_values 9 (henge_mover_win_state.make_move 'A') (-1) hA⟩

/-- C5: strict alternation.  In each of the three games, applying any move
from get_possible_moves yields a state whose acting player is the other of
the two fixed players (SubtractSquare and Chopsticks hand the turn to
get_next_player; StoneHenge flips p1_turn; there are no pass moves). -/
theorem make_move_alternates :
    (∀ (s : SubtractSquareGameState) (m : Int), m ∈ s.get_possible_moves →
      (s.make_move m).player ≠ s.player) ∧
    (∀ (s : ChopsticksGameState) (m : String), m ∈ s.get_possible_moves →
      (s.make_move m).player ≠ s.player) ∧
    (∀ (s : StoneHengeState) (m : Char), m ∈ s.get_possible_moves →
      (s.make_move m).get_current_player_name ≠ s.get_current_player_name) := by
  refine ⟨fun s m _ => ?_, fun s m hm => ?_, fun s m _ => ?_⟩
  · cases hp : s.player <;>
      simp [SubtractSquareGameState.make_move, Player.get_next_player, hp]
  · have hm4 : m = "ll" ∨ m = "lr" ∨ m = "rl" ∨ m = "rr" := by
      unfold ChopsticksGameState.get_possible_moves at hm
      rcases List.mem_append.1 hm with h | h <;> split at h <;> simp at h <;> tauto
    rcases hm4 with rfl | rfl | rfl | rfl <;>
      cases hp : s.player <;>
        simp [ChopsticksGameState.make_move, Player.get_next_player, hp]
  · cases hb : s.p1_turn <;>
      simp [StoneHengeState.make_move, StoneHengeState.get_current_player_name, hb]

/-- Witness for C5: one legal move in each game from a concrete state. -/
theorem make_move_alternates_witness :
    ((SubtractSquareGameState.make_move ⟨.p1, 2⟩ 1).player ≠
        (⟨.p1, 2⟩ : SubtractSquareGameState).player) ∧
      ((ChopsticksGameState.make_move (ChopsticksGame.init true) "ll").player ≠
        (ChopsticksGame.init true).player) ∧
      ((StoneHengeState.make_move
          ⟨true, [['A', 'B'], ['C', 'x']], ['@', '@'], ['@', '@'], ['@', '@']⟩
          'A').get_current_player_name ≠
        (⟨true, [['A', 'B'], ['C', 'x']], ['@', '@'], ['@', '@'],
          ['@', '@']⟩ : StoneHengeState).get_current_player_name) :=
  ⟨make_move_alternates.1 ⟨.p1, 2⟩ 1 (by decide),
    make_move_alternates.2.1 (ChopsticksGame.init true) "ll" (by decide),
    make_move_alternates.2.2 _ 'A' (by decide)⟩

/-- C4 counterexample: subtract-square's make_move performs no legality
check and there is no InvalidMoveError anywhere in the source: applying
the illegal move 4 at value 3 (legal moves: [1]) silently returns the
successor state [player = p2, number = -1]. -/
theorem make_move_accepts_illegal_move :
    SubtractSquareGameState.make_move ⟨.p1, 3⟩ 4 = ⟨.p2, -1⟩ ∧
      4 ∉ (⟨.p1, 3⟩ : SubtractSquareGameState).get_possible_moves := by
  decide

/-- C4 amended: make_move is a pure total function that never validates
its move.  Subtract-square subtracts any integer; chopsticks applies a
well-formed move even from a dead (zero) hand, which is never legal;
stonehenge claims nothing for an unknown letter and still flips the turn.
(Chopsticks raises KeyError/IndexError only on malformed move strings,
which no caller produces; no game raises InvalidMoveError.) -/
theorem make_move_total_without_validation :
    (∀ (s : SubtractSquareGameState) (m : Int),
      s.make_move m = ⟨s.player.get_next_player, s.number - m⟩) ∧
    (∀ (s : ChopsticksGameState), (s.hands s.player).l = 0 →
      "ll" ∉ s.get_possible_moves ∧
        (s.make_move "ll").player = s.player.get_next_player) ∧
    ('Z' ∉ (⟨true, [['A', 'B'], ['C', 'x']], ['@', '@'], ['@', '@'],
        ['@', '@']⟩ : StoneHengeState).get_possible_moves ∧
      StoneHengeState.make_move
          ⟨true, [['A', 'B'], ['C', 'x']], ['@', '@'], ['@', '@'], ['@', '@']⟩
          'Z' =
        ⟨false, [['A', 'B'], ['C', 'x']], ['@', '@'], ['@', '@'], ['@', '@']⟩) := by
  refine ⟨fun s m => rfl, fun s hl => ⟨?_, ?_⟩, by decide⟩
  · simp [ChopsticksGameState.get_possible_moves, hl]
  · cases hp : s.player <;>
      simp [ChopsticksGameState.make_move, Player.get_next_player, hp]

/-- Witness for C4's amended theorem: the subtract-square conjunct at the
illegal move 4 from value 3 and the chopsticks conjunct at a state whose
left hand is dead. -/
theorem make_move_total_without_validation_witness :
    (SubtractSquareGameState.make_move ⟨.p1, 3⟩ 4 =
        ⟨Player.p1.get_next_player, 3 - 4⟩) ∧
      ("ll" ∉ (⟨.p1, ⟨0, 2⟩, ⟨1, 1⟩⟩ : ChopsticksGameState).get_possible_moves ∧
        ((⟨.p1, ⟨0, 2⟩, ⟨1, 1⟩⟩ : ChopsticksGameState).make_move "ll").player =
          Player.p1.get_next_player) :=
  ⟨make_move_total_without_validation.1 ⟨.p1, 3⟩ 4,
    make_move_total_without_validation.2.1 ⟨.p1, ⟨0, 2⟩, ⟨1, 1⟩⟩ rfl⟩

/-- On an empty stack the loop's crashing pop comes immediately, with the
table unchanged, whatever the fuel. -/
theorem iter_loop_nil {S M K : Type} [DecidableEq K] (g : GameI S M K)
    (p : Player) (fuel : Nat) (evaluated_state : List (K × Int)) :
    iter_loop g p fuel [] evaluated_state = some evaluated_state := by
  cases fuel <;> simp [iter_loop]

/-- C3 counterexample: on a root with no legal moves the recursive engine
does not fail with any error: it runs its selection loop over an empty
list and silently returns Python's None (best_move was never assigned).
There is no NoMovesError anywhere in the source. -/
theorem recursive_minimax_silent_none_without_moves :
    (⟨.p1, 0⟩ : SubtractSquareGameState).get_possible_moves = [] ∧
      recursive_minimax subtractSquare 5 ⟨.p1, 0⟩ = none := by decide

/-- C3 amended: on a root with no legal moves (any subtract-square value
at most 0) neither engine raises a NoMovesError: the recursive engine
returns None, and the iterative engine reaches moves[-1] on an empty list,
raising an IndexError (embedded as `none`) - for every fuel, so neither is
a fuel artefact. -/
theorem engines_silent_on_empty_moves (p : Player) (n : Int) (hn : n ≤ 0)
    (fuel : Nat) :
    recursive_minimax subtractSquare fuel ⟨p, n⟩ = none ∧
      iterative_minimax_strategy subtractSquare fuel ⟨p, n⟩ = none := by
  have hmv : (⟨p, n⟩ : SubtractSquareGameState).get_possible_moves = [] := by
    unfold SubtractSquareGameState.get_possible_moves
    rw [show n.toNat = 0 from Int.toNat_of_nonpos hn]
    simp [List.range_succ]
  constructor
  · simp [recursive_minimax, subtractSquare, hmv, select_best, map_option]
  · simp [iterative_minimax_strategy, subtractSquare, hmv, sort_by_key,
      map_option]

/-- Witness for C3's amended theorem at value 0 with fuel 5. -/
theorem engines_silent_on_empty_moves_witness :
    recursive_minimax subtractSquare 5 ⟨.p2, 0⟩ = none ∧
      iterative_minimax_strategy subtractSquare 5 ⟨.p2, 0⟩ = none :=
  engines_silent_on_empty_moves .p2 0 (by decide) 5

/-
C9: get_score mutates the Game object.  The cursor (game.current_state) is
threaded explicitly through the engines below; get_score repoints it to
the state being scored and nothing ever restores it, so after a search the
cursor is the last terminal state evaluated.
-/

/-- get_score with the game object's cursor made explicit: the cursor is
repointed to the scored state (`game.current_state = state`) and the value
is computed by game.is_winner, which in every concrete game reads only the
cursor (is_winner takes no state argument).  The incoming cursor is
discarded: nothing restores it. -/
def get_score_cursor {S M K : Type} (g : GameI S M K) (s : S) (p : Player)
    (_cursor : S) : Int × S :=
  (if g.winner s p then GameState.WIN else GameState.LOSE, s)

/-- Thread a cursor through a left-to-right evaluation of `f` over a list,
collecting the produced scores (the evaluation order of the list
comprehensions in strategy.py). -/
def thread_scores {A S : Type} (f : A → S → Option (Int × S)) :
    List A → S → Option (List Int × S)
  | [], cursor => some ([], cursor)
  | a :: rest, cursor => do
    let vc ← f a cursor
    let rest' ← thread_scores f rest vc.2
    some (vc.1 :: rest'.1, rest'.2)

/-- recursive_minimax_scores with the cursor threaded. -/
def recursive_minimax_scores_cursor {S M K : Type} (g : GameI S M K)
    (p : Player) : Nat → S → S → Option (Int × S)
  | 0, _, _ => none
  | fuel + 1, s, cursor =>
    if g.is_over s then some (get_score_cursor g s p cursor)
    else do
      let sc ← thread_scores
        (fun m cur => recursive_minimax_scores_cursor g p fuel (g.apply s m) cur)
        (g.moves s) cursor
      match (if g.player s = p then sc.1.max? else sc.1.min?) with
      | some v => some (v, sc.2)
      | none => none

/-- The terminal states visited by recursive_minimax_scores, in
depth-first, left-to-right order (defined independently of the engines). -/
def terminal_trace {S M K : Type} (g : GameI S M K) : Nat → S → Option (List S)
  | 0, _ => none
  | fuel + 1, s =>
    if g.is_over s then some [s]
    else do
      let tss ← map_option (fun m => terminal_trace g fuel (g.apply s m)) (g.moves s)
      some tss.flatten

/-- recursive_minimax with the cursor threaded; the outer Option is fuel
exhaustion, the inner Option M is Python's best_move (None when there are
no moves). -/
def recursive_minimax_cursor {S M K : Type} (g : GameI S M K) (fuel : Nat)
    (state : S) (cursor : S) : Option (Option M × S) := do
  let p := g.player state
  let sc ← thread_scores
    (fun m cur => recursive_minimax_scores_cursor g p fuel (g.apply state m) cur)
    (g.moves state) cursor
  some (select_best ((g.moves state).zip sc.1), sc.2)

/-- _evaluate_and_add with the cursor threaded: only the terminal branch
calls get_score, and hence only it repoints the cursor. -/
def _evaluate_and_add_cursor {S M K : Type} [DecidableEq K] (g : GameI S M K)
    (p : Player) (n : S) (stack : List S) (evaluated_state : List (K × Int))
    (cursor : S) : List S × List (K × Int) × S :=
  if g.is_over n then (stack, (g.key n, get_score g n p) :: evaluated_state, n)
  else
    match node_get_score g p evaluated_state n with
    | some score => (stack, (g.key n, score) :: evaluated_state, cursor)
    | none => (stack ++ [n], evaluated_state, cursor)

/-- `iter_step` with the cursor threaded. -/
def iter_step_cursor {S M K : Type} [DecidableEq K] (g : GameI S M K)
    (p : Player) (n : S) (stack : List S) (evaluated_state : List (K × Int))
    (cursor : S) : List S × List (K × Int) × S :=
  let smc1 := _evaluate_and_add_cursor g p n stack evaluated_state cursor
  let not_evaluated := (children g n).filter
    (fun c => (smc1.2.1.lookup (g.key c)).isNone)
  not_evaluated.foldl
    (fun smc c => _evaluate_and_add_cursor g p c smc.1 smc.2.1 smc.2.2) smc1

/-- The while loop with the cursor threaded.  As with `iter_loop`, the
stale stack_length means the loop never exits normally: `some (es, cur)`
is the memo table and the cursor (game.current_state) at the instant the
drained-stack pop raises IndexError, and `none` means the fuel bound was
hit with the loop still running. -/
def iter_loop_cursor {S M K : Type} [DecidableEq K] (g : GameI S M K)
    (p : Player) : Nat → List S → List (K × Int) → S →
    Option (List (K × Int) × S)
  | 0, stack, evaluated_state, cursor =>
    if stack.isEmpty then some (evaluated_state, cursor) else none
  | fuel + 1, stack, evaluated_state, cursor =>
    match stack.getLast? with
    | none => some (evaluated_state, cursor)
    | some n =>
      let smc := iter_step_cursor g p n stack.dropLast evaluated_state cursor
      iter_loop_cursor g p fuel smc.1 smc.2.1 smc.2.2

/-- iterative_minimax_strategy with the cursor threaded.  `some (r, cur)`
means execution stops — always by an exception — with the cursor on
`cur`; `r` is the returned move and is always `none`, because with legal
moves the loop dies at the drained-stack pop (its guard reads the stale
stack_length, so the selection code is unreachable) and without legal
moves moves[-1] raises IndexError with the cursor untouched.  The outer
`none` is the fuel bound (the loop still spinning).  The cursor at the
stop is what a caller observes on the Game object after catching the
error. -/
def iterative_minimax_cursor {S M K : Type} [DecidableEq K] (g : GameI S M K)
    (fuel : Nat) (state : S) (cursor : S) : Option (Option M × S) :=
  let moves := (g.moves state).map (fun m => (m, g.apply state m))
  let stack := moves.map (fun x => x.2)
  if stack.isEmpty then
    some ((none : Option M), cursor)
  else
    (iter_loop_cursor g (g.player state) fuel stack [] cursor).map
      (fun mc => ((none : Option M), mc.2))

/-- getLastD distributes over append by chaining defaults. -/
theorem getLastD_append_chain {A : Type} (l1 l2 : List A) (d : A) :
    (l1 ++ l2).getLastD d = l2.getLastD (l1.getLastD d) := by
  rw [List.getLastD_eq_getLast?, List.getLastD_eq_getLast?,
    List.getLastD_eq_getLast?, List.getLast?_append]
  cases l2.getLast? <;> simp

/-- Monadic bind on Option with a present value, in the form produced by
do-notation. -/
theorem bind_some_eq {A B : Type} (a : A) (f : A → Option B) :
    (bind (some a) f : Option B) = f a := rfl

/-- Monadic bind on Option with an absent value, in the form produced by
do-notation. -/
theorem bind_none_eq {A B : Type} (f : A → Option B) :
    (bind (none : Option A) f : Option B) = none := rfl

/-- Threading a cursor through a list of evaluations that each leave the
cursor on the last terminal of their own trace leaves it on the last
terminal of the concatenated trace. -/
theorem thread_scores_spec {A S : Type} (fs : A → S → Option (Int × S))
    (fv : A → Option Int) (ft : A → Option (List S)) (l : List A)
    (h : ∀ a ∈ l, ∀ cur, fs a cur =
      (fv a).bind (fun v => (ft a).map (fun ts => (v, ts.getLastD cur)))) :
    ∀ cursor, thread_scores fs l cursor =
      (map_option fv l).bind (fun vs => (map_option ft l).map
        (fun tss => (vs, tss.flatten.getLastD cursor))) := by
  induction l with
  | nil => intro cursor; simp [thread_scores, map_option]
  | cons a t ih =>
    intro cursor
    rw [thread_scores, h a (List.mem_cons_self a t) cursor]
    cases hva : fv a with
    | none => simp [map_option, hva]
    | some v =>
      cases hta : ft a with
      | none => simp [map_option, hva, hta]
      | some ts =>
        simp only [map_option, hva, hta, Option.map_some', bind_some_eq, Option.some_bind]
        rw [ih (fun b hb => h b (List.mem_cons_of_mem _ hb)) (ts.getLastD cursor)]
        cases hvt : map_option fv t with
        | none => simp
        | some vs =>
          cases htt : map_option ft t with
          | none => simp
          | some tss =>
            simp [getLastD_append_chain]
            cases tss.flatten.getLast? <;> simp

/-- The cursor-threaded recursive scorer computes the same score as the
pure one and leaves the cursor on the last terminal state of the
depth-first terminal trace (or unchanged if the search fails). -/
theorem recursive_scores_cursor_eq {S M K : Type} (g : GameI S M K)
    (p : Player) :
    ∀ (fuel : Nat) (s cursor : S),
      recursive_minimax_scores_cursor g p fuel s cursor =
        (recursive_minimax_scores g p fuel s).bind (fun v =>
          (terminal_trace g fuel s).map (fun ts => (v, ts.getLastD cursor))) := by
  intro fuel
  induction fuel with
  | zero =>
    intro s cursor
    simp [recursive_minimax_scores_cursor, recursive_minimax_scores,
      terminal_trace]
  | succ fuel ih =>
    intro s cursor
    rw [recursive_minimax_scores_cursor, recursive_minimax_scores,
      terminal_trace]
    by_cases hov : g.is_over s
    · simp [hov, get_score_cursor, get_score]
    · simp only [hov, if_false, Bool.false_eq_true]
      rw [thread_scores_spec _ _ _ _ (fun m _ cur => ih (g.apply s m) cur) cursor]
      cases hv : map_option
          (fun m => recursive_minimax_scores g p fuel (g.apply s m))
          (g.moves s) with
      | none => simp
      | some vs =>
        cases ht : map_option
            (fun m => terminal_trace g fuel (g.apply s m)) (g.moves s) with
        | none =>
          simp only [Option.some_bind, Option.map_none', Option.none_bind,
            bind_some_eq, bind_none_eq]
          cases hmx : (if g.player s = p then vs.max? else vs.min?) <;> simp
        | some tss =>
          simp only [Option.some_bind, Option.map_some', bind_some_eq]
          cases hmx : (if g.player s = p then vs.max? else vs.min?) <;> simp

/-- C9: scoring mutates the Game object.  get_score repoints
game.current_state to the state being scored and never restores it (the
concrete games' is_winner takes no state argument and reads only this
cursor, which is how `GameI.winner` is derived).  Consequently the
recursive scorer leaves the cursor on the last terminal state of its
depth-first evaluation, and concretely, from the subtract-square root
[player = p1, number = 4] with the cursor initially on that root, the
recursive engine returns move 4 leaving the cursor on the terminal
[player = p2, number = 0] (the last of the trace), and the iterative
engine terminates by IndexError — returning no move — with the cursor
left on the terminal [player = p1, number = 0]; in both cases the cursor
no longer holds the state the caller had set. -/
theorem get_score_leaves_cursor_on_last_terminal {S M K : Type}
    (g : GameI S M K) (p : Player) (fuel : Nat) (s cursor : S) :
    (recursive_minimax_scores_cursor g p fuel s cursor =
      (recursive_minimax_scores g p fuel s).bind (fun v =>
        (terminal_trace g fuel s).map (fun ts => (v, ts.getLastD cursor)))) ∧
    (recursive_minimax_cursor subtractSquare 10 ⟨.p1, 4⟩ ⟨.p1, 4⟩ =
      some (some 4, ⟨.p2, 0⟩) ∧
     terminal_trace subtractSquare 10 ⟨.p1, 4⟩ =
      some [⟨.p1, 0⟩, ⟨.p2, 0⟩] ∧
     iterative_minimax_cursor subtractSquare 100 ⟨.p1, 4⟩ ⟨.p1, 4⟩ =
      some ((none : Option Int), ⟨.p1, 0⟩) ∧
     SubtractSquareGame.is_over ⟨.p2, 0⟩ = true ∧
     SubtractSquareGame.is_over ⟨.p1, 0⟩ = true ∧
     (⟨.p2, 0⟩ : SubtractSquareGameState) ≠ ⟨.p1, 4⟩ ∧
     (⟨.p1, 0⟩ : SubtractSquareGameState) ≠ ⟨.p1, 4⟩) :=
  ⟨recursive_scores_cursor_eq g p fuel s cursor, by decide⟩

/-
C8: cycles.  Chopsticks positions can repeat: the four states below form a
reachable 4-cycle (lr from the first, then rl, rr, rl), and the iterative
engine never terminates from the first of them, whatever the fuel.
-/

/-- A chopsticks state on a 4-cycle: p1 to move, p1: 2-3, p2: 1-4. -/
def cycleS1 : ChopsticksGameState := ⟨.p1, ⟨2, 3⟩, ⟨1, 4⟩⟩

/-- After 'lr' from `cycleS1`: p2 to move, p1: 2-3, p2: 1-1. -/
def cycleS2 : ChopsticksGameState := ⟨.p2, ⟨2, 3⟩, ⟨1, 1⟩⟩

/-- After 'rl' from `cycleS2`: p1 to move, p1: 3-3, p2: 1-1. -/
def cycleS3 : ChopsticksGameState := ⟨.p1, ⟨3, 3⟩, ⟨1, 1⟩⟩

/-- After 'rr' from `cycleS3`: p2 to move, p1: 3-3, p2: 1-4; 'rl' returns
to `cycleS1`. -/
def cycleS4 : ChopsticksGameState := ⟨.p2, ⟨3, 3⟩, ⟨1, 4⟩⟩

/-- The four states of the cycle. -/
def cycle_states : List ChopsticksGameState := [cycleS1, cycleS2, cycleS3, cycleS4]

/-- The successor of each cycle state along the cycle. -/
def cycle_succ (s : ChopsticksGameState) : ChopsticksGameState :=
  if s = cycleS1 then cycleS2
  else if s = cycleS2 then cycleS3
  else if s = cycleS3 then cycleS4
  else cycleS1

/-- Every state reachable from `cycleS1` has all hand values at most 4
(same induction as for the initial state). -/
theorem reach_cycleS1_hands_le (s : ChopsticksGameState)
    (h : Reach1 chopsticks cycleS1 s) :
    s.p1_hands.l ≤ 4 ∧ s.p1_hands.r ≤ 4 ∧ s.p2_hands.l ≤ 4 ∧
      s.p2_hands.r ≤ 4 := by
  induction h with
  | seed hc =>
    rcases List.mem_map.1 hc with ⟨m, _, rfl⟩
    exact ChopsticksGameState.make_move_hands_le _ _ (by decide)
  | step _ hc ih =>
    rcases List.mem_map.1 hc with ⟨m, _, rfl⟩
    exact ChopsticksGameState.make_move_hands_le _ _ ih

/-- The rendered value of a hand count up to 4 is its single digit
character. -/
theorem toString_nat_le4 (n : Nat) (h : n ≤ 4) :
    (toString n).toList = [Nat.digitChar n] := by
  interval_cases n <;> decide

/-- String append distributes over toList. -/
theorem string_toList_append (a b : String) :
    (a ++ b).toList = a.toList ++ b.toList := by
  cases a; cases b; rfl

/-- The character list of str(state) for a state with all hands at most 4:
every variable component is a single character at a fixed position. -/
theorem chop_str_toList (s : ChopsticksGameState)
    (h1 : s.p1_hands.l ≤ 4) (h2 : s.p1_hands.r ≤ 4)
    (h3 : s.p2_hands.l ≤ 4) (h4 : s.p2_hands.r ≤ 4) :
    (s.str).toList =
      ['[', 'p', 'l', 'a', 'y', 'e', 'r', ' ', '=', ' ', 'p',
        (if s.player = .p1 then '1' else '2'), ',', ' ', 'h', 'a', 'n', 'd',
        's', ' ', '=', ' ', 'p', '1', ':', ' ', Nat.digitChar s.p1_hands.l,
        '-', Nat.digitChar s.p1_hands.r, ',', ' ', 'p', '2', ':', ' ',
        Nat.digitChar s.p2_hands.l, '-', Nat.digitChar s.p2_hands.r, ']'] := by
  unfold ChopsticksGameState.str
  rw [string_toList_append, string_toList_append, string_toList_append,
    string_toList_append, string_toList_append, string_toList_append,
    string_toList_append, string_toList_append, string_toList_append,
    string_toList_append,
    toString_nat_le4 _ h1, toString_nat_le4 _ h2, toString_nat_le4 _ h3,
    toString_nat_le4 _ h4]
  cases hp : s.player <;> simp [Player.name, hp]

/-- Digit characters are injective on values up to 4. -/
theorem digitChar_inj_le4 (m n : Nat) (hm : m ≤ 4) (hn : n ≤ 4)
    (h : Nat.digitChar m = Nat.digitChar n) : m = n := by
  interval_cases m <;> interval_cases n <;> revert h <;> decide

/-- str is injective on states with all hands at most 4. -/
theorem chop_str_inj_bounded (s t : ChopsticksGameState)
    (hs1 : s.p1_hands.l ≤ 4) (hs2 : s.p1_hands.r ≤ 4)
    (hs3 : s.p2_hands.l ≤ 4) (hs4 : s.p2_hands.r ≤ 4)
    (ht1 : t.p1_hands.l ≤ 4) (ht2 : t.p1_hands.r ≤ 4)
    (ht3 : t.p2_hands.l ≤ 4) (ht4 : t.p2_hands.r ≤ 4)
    (h : s.str = t.str) : s = t := by
  have hl : (s.str).toList = (t.str).toList := by rw [h]
  rw [chop_str_toList s hs1 hs2 hs3 hs4, chop_str_toList t ht1 ht2 ht3 ht4] at hl
  simp only [List.cons.injEq, true_and, and_true] at hl
  obtain ⟨hp, ha, hb, hc, hd⟩ := hl
  have hplayer : s.player = t.player := by
    cases hps : s.player <;> cases hpt : t.player <;> simp_all
  obtain ⟨sp, ⟨sa, sb⟩, ⟨sc, sd⟩⟩ := s
  obtain ⟨tp, ⟨ta, tb⟩, ⟨tc, td⟩⟩ := t
  simp only at hs1 hs2 hs3 hs4 ht1 ht2 ht3 ht4 ha hb hc hd hplayer
  rw [hplayer, digitChar_inj_le4 _ _ hs1 ht1 ha,
    digitChar_inj_le4 _ _ hs2 ht2 hb, digitChar_inj_le4 _ _ hs3 ht3 hc,
    digitChar_inj_le4 _ _ hs4 ht4 hd]

/-- A successful map_option evaluation succeeds on every element. -/
theorem map_option_forall_some {A B : Type} (f : A → Option B) (l : List A)
    (bs : List B) (h : map_option f l = some bs) :
    ∀ a ∈ l, ∃ b, f a = some b := by
  induction l generalizing bs with
  | nil => intro a ha; cases ha
  | cons x t ih =>
    intro a ha
    rw [map_option] at h
    cases hx : f x with
    | none => rw [hx, bind_none_eq] at h; cases h
    | some b =>
      rw [hx, bind_some_eq] at h
      cases hmt : map_option f t with
      | none => rw [hmt, bind_none_eq] at h; cases h
      | some bs' =>
        rcases List.mem_cons.1 ha with rfl | ha
        · exact ⟨b, hx⟩
        · exact ih bs' hmt a ha

/-- While no cycle state is memoized, GameTreeNode.get_score of a cycle
state returns None: its successor on the cycle is among its children and
is not memoized. -/
theorem node_get_score_cycle_none (p : Player) (memo : List (String × Int))
    (hmemo : ∀ u ∈ cycle_states, memo.lookup u.str = none)
    (n : ChopsticksGameState) (hn : n ∈ cycle_states) :
    node_get_score chopsticks p memo n = none := by
  cases hng : node_get_score chopsticks p memo n with
  | none => rfl
  | some v =>
    exfalso
    unfold node_get_score at hng
    cases hmo : map_option (fun c => memo.lookup (chopsticks.key c))
        (children chopsticks n) with
    | none => rw [hmo, bind_none_eq] at hng; cases hng
    | some scores =>
      have hsucc_mem : cycle_succ n ∈ children chopsticks n := by
        fin_cases hn <;> decide
      obtain ⟨b, hb⟩ := map_option_forall_some _ _ _ hmo (cycle_succ n) hsucc_mem
      have hnone : memo.lookup (cycle_succ n).str = none :=
        hmemo _ (by fin_cases hn <;> decide)
      rw [show chopsticks.key (cycle_succ n) = (cycle_succ n).str from rfl,
        hnone] at hb
      cases hb

/-- No cycle state's key equals the key of a memoizable state: a state
reachable from `cycleS1` that is either terminal or whose
node_get_score is defined is not on the cycle, and keys are injective on
the bounded reachable states. -/
theorem cycle_key_ne (n : ChopsticksGameState)
    (hn : Reach1 chopsticks cycleS1 n)
    (hres : ChopsticksGame.is_over n = true ∨ n ∉ cycle_states)
    (u : ChopsticksGameState) (hu : u ∈ cycle_states) : ¬ u.str = n.str := by
  intro h
  obtain ⟨h1, h2, h3, h4⟩ := reach_cycleS1_hands_le n hn
  have hu4 : u.p1_hands.l ≤ 4 ∧ u.p1_hands.r ≤ 4 ∧ u.p2_hands.l ≤ 4 ∧
      u.p2_hands.r ≤ 4 := by fin_cases hu <;> decide
  have heq : u = n :=
    chop_str_inj_bounded u n hu4.1 hu4.2.1 hu4.2.2.1 hu4.2.2.2 h1 h2 h3 h4 h
  rcases hres with hov | hnc
  · rw [← heq] at hov
    revert hov
    fin_cases hu <;> decide
  · exact hnc (heq ▸ hu)

/-- _evaluate_and_add preserves the cycle invariant: cycle states stay out
of the memo table, nothing leaves the stack, only the node itself may join
it, and a popped cycle node is always pushed back. -/
theorem eval_add_cycle_preserves (p : Player) (n : ChopsticksGameState)
    (stack : List ChopsticksGameState) (memo : List (String × Int))
    (hn : Reach1 chopsticks cycleS1 n)
    (hmemo : ∀ u ∈ cycle_states, memo.lookup u.str = none) :
    (∀ u ∈ cycle_states,
      ((_evaluate_and_add chopsticks p n stack memo).2).lookup u.str = none) ∧
    (∀ x ∈ stack, x ∈ (_evaluate_and_add chopsticks p n stack memo).1) ∧
    (∀ x ∈ (_evaluate_and_add chopsticks p n stack memo).1, x ∈ stack ∨ x = n) ∧
    (n ∈ cycle_states → n ∈ (_evaluate_and_add chopsticks p n stack memo).1) := by
  unfold _evaluate_and_add
  by_cases hov : chopsticks.is_over n = true
  · have hne := fun u hu => cycle_key_ne n hn (Or.inl hov) u hu
    rw [if_pos hov]
    refine ⟨?_, fun x hx => hx, fun x hx => Or.inl hx, ?_⟩
    · intro u hu
      have hbeq : (u.str == chopsticks.key n) = false :=
        beq_eq_false_iff_ne.2 (hne u hu)
      simp only [List.lookup, hbeq]
      exact hmemo u hu
    · intro hnc
      exfalso
      have : ChopsticksGame.is_over n = false := by
        revert hnc
        simp only [cycle_states, List.mem_cons]
        rintro (rfl | rfl | rfl | rfl | h) <;> first | decide | cases h
      rw [show chopsticks.is_over = ChopsticksGame.is_over from rfl, this] at hov
      cases hov
  · rw [if_neg hov]
    cases hng : node_get_score chopsticks p memo n with
    | some sc =>
      have hnc : n ∉ cycle_states := by
        intro hc
        rw [node_get_score_cycle_none p memo hmemo n hc] at hng
        cases hng
      have hne := fun u hu => cycle_key_ne n hn (Or.inr hnc) u hu
      refine ⟨?_, fun x hx => hx, fun x hx => Or.inl hx, fun hc => absurd hc hnc⟩
      intro u hu
      have hbeq : (u.str == chopsticks.key n) = false :=
        beq_eq_false_iff_ne.2 (hne u hu)
      simp only [List.lookup, hbeq]
      exact hmemo u hu
    | none =>
      refine ⟨hmemo, fun x hx => List.mem_append_left _ hx, ?_, ?_⟩
      · intro x hx
        rcases List.mem_append.1 hx with hx | hx
        · exact Or.inl hx
        · exact Or.inr (List.mem_singleton.1 hx)
      · intro _
        exact List.mem_append_right _ (List.mem_singleton.2 rfl)

/-- Folding _evaluate_and_add over a list of reachable nodes preserves the
cycle invariant. -/
theorem fold_eval_add_cycle_preserves (p : Player)
    (l : List ChopsticksGameState)
    (hl : ∀ c ∈ l, Reach1 chopsticks cycleS1 c) :
    ∀ (stack : List ChopsticksGameState) (memo : List (String × Int)),
      (∀ u ∈ cycle_states, memo.lookup u.str = none) →
      (∀ u ∈ cycle_states,
        ((l.foldl (fun sm c => _evaluate_and_add chopsticks p c sm.1 sm.2)
          (stack, memo)).2).lookup u.str = none) ∧
      (∀ x ∈ stack,
        x ∈ (l.foldl (fun sm c => _evaluate_and_add chopsticks p c sm.1 sm.2)
          (stack, memo)).1) ∧
      (∀ x ∈ (l.foldl (fun sm c => _evaluate_and_add chopsticks p c sm.1 sm.2)
          (stack, memo)).1, x ∈ stack ∨ x ∈ l) := by
  induction l with
  | nil =>
    intro stack memo hmemo
    exact ⟨hmemo, fun x hx => hx, fun x hx => Or.inl hx⟩
  | cons c t ih =>
    intro stack memo hmemo
    have hc := hl c (List.mem_cons_self c t)
    obtain ⟨e1, e2, e3, _⟩ := eval_add_cycle_preserves p c stack memo hc hmemo
    obtain ⟨f1, f2, f3⟩ := ih (fun b hb => hl b (List.mem_cons_of_mem _ hb))
      (_evaluate_and_add chopsticks p c stack memo).1
      (_evaluate_and_add chopsticks p c stack memo).2 e1
    refine ⟨?_, ?_, ?_⟩
    · simpa using f1
    · intro x hx
      simpa using f2 x (e2 x hx)
    · intro x hx
      rcases f3 x (by simpa using hx) with hx' | hx'
      · rcases e3 x hx' with h | h
        · exact Or.inl h
        · exact Or.inr (h ▸ List.mem_cons_self c t)
      · exact Or.inr (List.mem_cons_of_mem _ hx')

/-- One while-loop iteration from a popped reachable node preserves the
cycle invariant. -/
theorem iter_step_cycle_preserves (p : Player) (n : ChopsticksGameState)
    (rest : List ChopsticksGameState) (memo : List (String × Int))
    (hn : Reach1 chopsticks cycleS1 n)
    (hrest : ∀ x ∈ rest, Reach1 chopsticks cycleS1 x)
    (hmemo : ∀ u ∈ cycle_states, memo.lookup u.str = none)
    (hcyc : (∃ u ∈ cycle_states, u ∈ rest) ∨ n ∈ cycle_states) :
    (∀ x ∈ (iter_step chopsticks p n rest memo).1,
      Reach1 chopsticks cycleS1 x) ∧
    (∀ u ∈ cycle_states,
      ((iter_step chopsticks p n rest memo).2).lookup u.str = none) ∧
    (∃ u ∈ cycle_states, u ∈ (iter_step chopsticks p n rest memo).1) := by
  obtain ⟨e1, e2, e3, e4⟩ := eval_add_cycle_preserves p n rest memo hn hmemo
  have hchildren : ∀ c ∈ children chopsticks n, Reach1 chopsticks cycleS1 c :=
    fun c hc => Reach1.step hn hc
  have hfiltered : ∀ c ∈ (children chopsticks n).filter
      (fun c => ((_evaluate_and_add chopsticks p n rest memo).2.lookup
        (chopsticks.key c)).isNone), Reach1 chopsticks cycleS1 c :=
    fun c hc => hchildren c (List.mem_of_mem_filter hc)
  obtain ⟨f1, f2, f3⟩ := fold_eval_add_cycle_preserves p _ hfiltered
    (_evaluate_and_add chopsticks p n rest memo).1
    (_evaluate_and_add chopsticks p n rest memo).2 e1
  unfold iter_step
  refine ⟨?_, ?_, ?_⟩
  · intro x hx
    rcases f3 x (by simpa using hx) with hx' | hx'
    · rcases e3 x hx' with h | h
      · exact hrest x h
      · exact h ▸ hn
    · exact hchildren x (List.mem_of_mem_filter hx')
  · simpa using f1
  · rcases hcyc with ⟨u, hu, hur⟩ | hnc
    · exact ⟨u, hu, by simpa using f2 u (e2 u hur)⟩
    · exact ⟨n, hnc, by simpa using f2 n (e4 hnc)⟩

/-- While a cycle state is on the stack and none is memoized, the while
loop never terminates: it exhausts any fuel. -/
theorem iter_loop_cycle_none (p : Player) :
    ∀ (fuel : Nat) (stack : List ChopsticksGameState)
      (memo : List (String × Int)),
      (∀ x ∈ stack, Reach1 chopsticks cycleS1 x) →
      (∀ u ∈ cycle_states, memo.lookup u.str = none) →
      (∃ u ∈ cycle_states, u ∈ stack) →
      iter_loop chopsticks p fuel stack memo = none := by
  intro fuel
  induction fuel with
  | zero =>
    rintro stack memo _ _ ⟨u, -, hu⟩
    rw [iter_loop, if_neg]
    simp only [List.isEmpty_iff]
    rintro rfl
    cases hu
  | succ fuel ih =>
    intro stack memo hst hmemo hcyc
    rw [iter_loop]
    cases hlast : stack.getLast? with
    | none =>
      exfalso
      obtain ⟨u, -, hu⟩ := hcyc
      rw [List.getLast?_eq_none_iff] at hlast
      rw [hlast] at hu
      cases hu
    | some n =>
      have hne : stack ≠ [] := by
        rintro rfl
        cases hlast
      have hstack_eq : stack = stack.dropLast ++ [n] := by
        have h1 := List.dropLast_append_getLast hne
        have h2 : stack.getLast hne = n := by
          have := List.getLast?_eq_getLast stack hne
          rw [hlast] at this
          exact (Option.some.inj this).symm
        rw [h2] at h1
        exact h1.symm
      have hn : Reach1 chopsticks cycleS1 n :=
        hst n (by rw [hstack_eq]; exact List.mem_append_right _ (by simp))
      have hrest : ∀ x ∈ stack.dropLast, Reach1 chopsticks cycleS1 x :=
        fun x hx => hst x ((List.dropLast_sublist stack).subset hx)
      have hcyc' : (∃ u ∈ cycle_states, u ∈ stack.dropLast) ∨
          n ∈ cycle_states := by
        obtain ⟨u, hu, hus⟩ := hcyc
        rw [hstack_eq] at hus
        rcases List.mem_append.1 hus with h | h
        · exact Or.inl ⟨u, hu, h⟩
        · exact Or.inr (by rwa [List.mem_singleton.1 h] at hu)
      obtain ⟨s1, s2, s3⟩ := iter_step_cycle_preserves p n stack.dropLast memo
        hn hrest hmemo hcyc'
      exact ih _ _ s1 s2 s3

/-- C8: the iterative engine has no cycle detection and no CycleError: on
the reachable chopsticks state [p1 to move, p1: 2-3, p2: 1-4], whose
transition graph contains the 4-cycle lr, rl, rr, rl, the while loop
re-pushes the unresolvable cycle nodes forever — it neither drains its
stack (it never even reaches the crashing pop on an empty stack) nor
finishes within any fuel bound — so the search never returns, whatever
the fuel. -/
theorem iterative_minimax_spins_on_cycle (fuel : Nat) :
    iter_loop chopsticks (chopsticks.player cycleS1) fuel
      (((chopsticks.moves cycleS1).map
        (fun m => (m, chopsticks.apply cycleS1 m))).map (fun x => x.2)) [] =
      none ∧
    iterative_minimax_strategy chopsticks fuel cycleS1 =
      (none : Option String) := by
  have hseeds : ((chopsticks.moves cycleS1).map
      (fun m => (m, chopsticks.apply cycleS1 m))).map (fun x => x.2) =
      [⟨.p2, ⟨2, 3⟩, ⟨3, 4⟩⟩, cycleS2, ⟨.p2, ⟨2, 3⟩, ⟨4, 4⟩⟩,
        ⟨.p2, ⟨2, 3⟩, ⟨1, 2⟩⟩] := by decide
  have hloop : iter_loop chopsticks (chopsticks.player cycleS1) fuel
      (((chopsticks.moves cycleS1).map
        (fun m => (m, chopsticks.apply cycleS1 m))).map (fun x => x.2)) [] =
      none := by
    apply iter_loop_cycle_none
    · rw [hseeds]
      intro x hx
      fin_cases hx <;> exact Reach1.seed (by decide)
    · intro u _
      rfl
    · rw [hseeds]
      exact ⟨cycleS2, by decide, by simp⟩
  refine ⟨hloop, ?_⟩
  unfold iterative_minimax_strategy
  simp only [hseeds, List.isEmpty_cons, Bool.false_eq_true, if_false,
    bind_const_none]

/-
General properties of the stable sort, the recursive scorer and the
iterative engine, leading to the refinement theorems for the two engines.
-/

/-- insert_by_key produces a permutation of the element consed on. -/
theorem insert_by_key_perm {A : Type} (f : A → Int) (a : A) (l : List A) :
    (insert_by_key f a l).Perm (a :: l) := by
  induction l with
  | nil => exact List.Perm.refl _
  | cons b t ih =>
    rw [insert_by_key]
    split
    · exact List.Perm.refl _
    · exact ((ih.cons b).trans (List.Perm.swap a b t))

/-- sort_by_key permutes its input. -/
theorem sort_by_key_perm {A : Type} (f : A → Int) (l : List A) :
    (sort_by_key f l).Perm l := by
  induction l with
  | nil => exact List.Perm.refl _
  | cons a t ih => exact (insert_by_key_perm f a _).trans (ih.cons a)

/-- Inserting into a list sorted by key keeps it sorted by key. -/
theorem insert_by_key_sorted {A : Type} (f : A → Int) (a : A) (l : List A)
    (h : l.Pairwise (fun x y => f x ≤ f y)) :
    (insert_by_key f a l).Pairwise (fun x y => f x ≤ f y) := by
  induction l with
  | nil => simp [insert_by_key]
  | cons b t ih =>
    rw [insert_by_key]
    rcases List.pairwise_cons.1 h with ⟨hb, ht⟩
    split
    next hab =>
      refine List.pairwise_cons.2 ⟨?_, h⟩
      intro x hx
      rcases List.mem_cons.1 hx with rfl | hx
      · exact hab
      · exact le_trans hab (hb x hx)
    next hab =>
      refine List.pairwise_cons.2 ⟨?_, ih ht⟩
      intro x hx
      rcases List.mem_cons.1 ((insert_by_key_perm f a t).mem_iff.1 hx) with rfl | hx
      · exact le_of_not_le hab
      · exact hb x hx

/-- sort_by_key sorts ascending by key. -/
theorem sort_by_key_sorted {A : Type} (f : A → Int) (l : List A) :
    (sort_by_key f l).Pairwise (fun x y => f x ≤ f y) := by
  induction l with
  | nil => simp [sort_by_key]
  | cons a t ih => exact insert_by_key_sorted f a _ ih

/-- Stability, phrased on equal-key classes: filtering one key class out of
the sorted list gives the key class of the input in input order. -/
theorem insert_by_key_filter_eq {A : Type} (f : A → Int) (v : Int) (a : A)
    (l : List A) :
    (insert_by_key f a l).filter (fun x => f x = v) =
      (a :: l).filter (fun x => f x = v) := by
  induction l with
  | nil => rfl
  | cons b t ih =>
    rw [insert_by_key]
    split
    next hab => rfl
    next hab =>
      by_cases hbv : f b = v
      · by_cases hav : f a = v
        · exfalso
          exact hab (by rw [hav, hbv])
        · simp [List.filter_cons, hav, hbv, ih]
      · simp [List.filter_cons, hbv, ih]

/-- sort_by_key is stable: each key class appears in input order. -/
theorem sort_by_key_filter_eq {A : Type} (f : A → Int) (v : Int) (l : List A) :
    (sort_by_key f l).filter (fun x => f x = v) =
      l.filter (fun x => f x = v) := by
  induction l with
  | nil => rfl
  | cons a t ih =>
    rw [sort_by_key, insert_by_key_filter_eq]
    by_cases hav : f a = v <;> simp [List.filter_cons, hav, ih]

instance intLeAntisymm : Std.Antisymm (fun (a b : Int) => a ≤ b) where
  antisymm h h' := le_antisymm h h'

/-- max? on integers characterized: the greatest member. -/
theorem int_max?_eq_some_iff {a : Int} {xs : List Int} :
    xs.max? = some a ↔ a ∈ xs ∧ ∀ b ∈ xs, b ≤ a :=
  List.max?_eq_some_iff (fun _ => le_refl _) (fun _ _ => max_choice _ _)
    (fun _ _ _ => max_le_iff)

/-- min? on integers characterized: the least member. -/
theorem int_min?_eq_some_iff {a : Int} {xs : List Int} :
    xs.min? = some a ↔ a ∈ xs ∧ ∀ b ∈ xs, a ≤ b :=
  List.min?_eq_some_iff (fun _ => le_refl _) (fun _ _ => min_choice _ _)
    (fun _ _ _ => le_min_iff)

/-- If the last element of a list satisfies the predicate, filtering keeps
the same last element. -/
theorem getLast?_filter_of_getLast {A : Type} (P : A → Bool) (l : List A)
    (hne : l ≠ []) (hP : P (l.getLast hne) = true) :
    (l.filter P).getLast? = l.getLast? := by
  induction l with
  | nil => exact absurd rfl hne
  | cons a t ih =>
    cases t with
    | nil =>
      simp only [List.getLast_singleton] at hP
      simp [List.filter_cons, hP]
    | cons b t' =>
      have hne' : (b :: t') ≠ [] := by simp
      have hPt : P ((b :: t').getLast hne') = true := by
        rwa [List.getLast_cons hne'] at hP
      have hmem : (b :: t').getLast hne' ∈ (b :: t').filter P :=
        List.mem_filter.2 ⟨List.getLast_mem hne', hPt⟩
      have hfrec := ih hne' hPt
      rw [List.filter_cons, List.getLast?_cons_cons]
      split
      · cases hft : (b :: t').filter P with
        | nil => rw [hft] at hmem; cases hmem
        | cons c t'' =>
          rw [List.getLast?_cons_cons, ← hft, hfrec]
      · rw [hfrec]

/-- Every element's key is at most the key of the last element of a list
sorted by key. -/
theorem key_le_getLast_of_sorted {A : Type} (f : A → Int) (l : List A)
    (hs : l.Pairwise (fun x y => f x ≤ f y)) (hne : l ≠ []) :
    ∀ x ∈ l, f x ≤ f (l.getLast hne) := by
  induction l with
  | nil => exact absurd rfl hne
  | cons a t ih =>
    rcases List.pairwise_cons.1 hs with ⟨ha, ht⟩
    intro x hx
    cases t with
    | nil =>
      rcases List.mem_cons.1 hx with rfl | hx
      · exact le_refl _
      · cases hx
    | cons b t' =>
      have hne' : (b :: t') ≠ [] := by simp
      rw [List.getLast_cons hne']
      rcases List.mem_cons.1 hx with rfl | hx
      · exact ha _ (List.getLast_mem hne')
      · exact ih ht hne' x hx

/-- The last element of the stable sort is the last input element whose
key attains the maximum key (the stable-sort characterization used by
both engines: moves[-1] after a stable sort on scores is the
last-enumerated move with the best score). -/
theorem sort_by_key_getLast? {A : Type} (f : A → Int) (l : List A) (M : Int)
    (hM : (l.map f).max? = some M) :
    (sort_by_key f l).getLast? = (l.filter (fun x => f x = M)).getLast? := by
  obtain ⟨hMmem, hMub⟩ := int_max?_eq_some_iff.1 hM
  obtain ⟨x0, hx0l, hx0⟩ := List.mem_map.1 hMmem
  have hne : l ≠ [] := List.ne_nil_of_mem hx0l
  have hsne : sort_by_key f l ≠ [] := by
    intro h0
    exact hne (List.Perm.eq_nil ((sort_by_key_perm f l).symm.trans (h0 ▸ List.Perm.refl _)))
  have hlastmem : (sort_by_key f l).getLast hsne ∈ l :=
    (sort_by_key_perm f l).mem_iff.1 (List.getLast_mem hsne)
  have hlast_le : f ((sort_by_key f l).getLast hsne) ≤ M :=
    hMub _ (List.mem_map_of_mem f hlastmem)
  have hle_last : M ≤ f ((sort_by_key f l).getLast hsne) := by
    have hx0s : x0 ∈ sort_by_key f l := (sort_by_key_perm f l).mem_iff.2 hx0l
    calc M = f x0 := hx0.symm
    _ ≤ f ((sort_by_key f l).getLast hsne) :=
      key_le_getLast_of_sorted f _ (sort_by_key_sorted f l) hsne x0 hx0s
  have hlastM : (fun x => decide (f x = M)) ((sort_by_key f l).getLast hsne) = true := by
    simp [le_antisymm hlast_le hle_last]
  calc (sort_by_key f l).getLast?
      = ((sort_by_key f l).filter (fun x => f x = M)).getLast? :=
        (getLast?_filter_of_getLast _ _ hsne hlastM).symm
    _ = (l.filter (fun x => f x = M)).getLast? := by
        rw [sort_by_key_filter_eq]

/-- Every element's key is at least the key of the head of a list sorted
by key. -/
theorem key_ge_head_of_sorted {A : Type} (f : A → Int) (l : List A)
    (hs : l.Pairwise (fun x y => f x ≤ f y)) (hne : l ≠ []) :
    ∀ x ∈ l, f (l.head hne) ≤ f x := by
  cases l with
  | nil => exact absurd rfl hne
  | cons a t =>
    rcases List.pairwise_cons.1 hs with ⟨ha, _⟩
    intro x hx
    rcases List.mem_cons.1 hx with rfl | hx
    · exact le_refl _
    · exact ha x hx

/-- The last element of the ascending stable sort of an integer list is
its maximum (the scores[-1] idiom of GameTreeNode.get_score). -/
theorem sort_id_getLast? (l : List Int) :
    (sort_by_key id l).getLast? = l.max? := by
  cases hl : l with
  | nil => rfl
  | cons a t =>
    have hne : l ≠ [] := by rw [hl]; simp
    have hsne : sort_by_key id l ≠ [] := by
      intro h0
      exact hne (List.Perm.eq_nil ((sort_by_key_perm id l).symm.trans
        (h0 ▸ List.Perm.refl _)))
    rw [← hl]
    rw [List.getLast?_eq_getLast _ hsne]
    symm
    refine int_max?_eq_some_iff.2 ⟨?_, ?_⟩
    · exact (sort_by_key_perm id l).mem_iff.1 (List.getLast_mem hsne)
    · intro b hb
      exact key_le_getLast_of_sorted id _ (sort_by_key_sorted id l) hsne b
        ((sort_by_key_perm id l).mem_iff.2 hb)

/-- The head of the ascending stable sort of an integer list is its
minimum (the scores[0] idiom of GameTreeNode.get_score). -/
theorem sort_id_head? (l : List Int) :
    (sort_by_key id l).head? = l.min? := by
  cases hl : l with
  | nil => rfl
  | cons a t =>
    have hne : l ≠ [] := by rw [hl]; simp
    have hsne : sort_by_key id l ≠ [] := by
      intro h0
      exact hne (List.Perm.eq_nil ((sort_by_key_perm id l).symm.trans
        (h0 ▸ List.Perm.refl _)))
    rw [← hl]
    rw [List.head?_eq_head hsne]
    symm
    refine int_min?_eq_some_iff.2 ⟨?_, ?_⟩
    · exact (sort_by_key_perm id l).mem_iff.1 (List.head_mem hsne)
    · intro b hb
      exact key_ge_head_of_sorted id _ (sort_by_key_sorted id l) hsne b
        ((sort_by_key_perm id l).mem_iff.2 hb)

/-- One step of the selection fold of recursive_minimax, beta-reduced. -/
theorem select_fold_step {M : Type} (am : Option M) (av : Int) (x : M × Int) :
    (if x.2 > (Prod.mk am av).2 then (some x.1, x.2) else (am, av)) =
    if x.2 > av then (some x.1, x.2) else (am, av) := rfl

/-- The selection fold of recursive_minimax never updates when no score
beats the accumulator. -/
theorem select_fold_no_improve {M : Type} (scored : List (M × Int))
    (am : Option M) (av : Int) (h : ∀ x ∈ scored, x.2 ≤ av) :
    scored.foldl
      (fun acc ms => if ms.2 > acc.2 then (some ms.1, ms.2) else acc)
      (am, av) = (am, av) := by
  induction scored generalizing am av with
  | nil => rfl
  | cons x t ih =>
    have hx : x.2 ≤ av := h x (List.mem_cons_self _ _)
    have hnot : ¬ (x.2 > av) := not_lt.2 hx
    rw [List.foldl_cons, select_fold_step, if_neg hnot]
    exact ih am av (fun y hy => h y (List.mem_cons_of_mem _ hy))

/-- The selection fold of recursive_minimax keeps the first element whose
score attains the maximum, as long as the initial accumulator score is
strictly below the maximum. -/
theorem select_fold_first_max {M : Type} (scored : List (M × Int))
    (am : Option M) (av : Int) (Mx : Int)
    (hmem : ∃ x ∈ scored, x.2 = Mx) (hub : ∀ x ∈ scored, x.2 ≤ Mx)
    (hav : av < Mx) :
    (scored.foldl
      (fun acc ms => if ms.2 > acc.2 then (some ms.1, ms.2) else acc)
      (am, av)).1 =
    (scored.find? (fun ms => ms.2 == Mx)).map Prod.fst := by
  induction scored generalizing am av with
  | nil => obtain ⟨x, hx, _⟩ := hmem; cases hx
  | cons x t ih =>
    rcases hv : decide (x.2 = Mx) with _ | _
    · have hvne : x.2 ≠ Mx := of_decide_eq_false hv
      have hvlt : x.2 < Mx := lt_of_le_of_ne (hub x (List.mem_cons_self _ _)) hvne
      have hfind : (x :: t).find? (fun ms => ms.2 == Mx) =
          t.find? (fun ms => ms.2 == Mx) :=
        List.find?_cons_of_neg _ (by simpa using hvne)
      rw [hfind]
      have hmem' : ∃ y ∈ t, y.2 = Mx := by
        obtain ⟨y, hy, hyv⟩ := hmem
        rcases List.mem_cons.1 hy with rfl | hy
        · exact absurd hyv hvne
        · exact ⟨y, hy, hyv⟩
      have hub' : ∀ y ∈ t, y.2 ≤ Mx := fun y hy => hub y (List.mem_cons_of_mem _ hy)
      rw [List.foldl_cons, select_fold_step]
      by_cases himp : x.2 > av
      · rw [if_pos himp]
        exact ih (some x.1) x.2 hmem' hub' hvlt
      · rw [if_neg himp]
        exact ih am av hmem' hub' hav
    · have hveq : x.2 = Mx := of_decide_eq_true hv
      have hfind : (x :: t).find? (fun ms => ms.2 == Mx) = some x :=
        List.find?_cons_of_pos _ (by simpa using hveq)
      rw [hfind, List.foldl_cons, select_fold_step,
        if_pos (show x.2 > av by rw [hveq]; exact hav)]
      rw [select_fold_no_improve t (some x.1) x.2
        (fun y hy => by rw [hveq]; exact hub y (List.mem_cons_of_mem _ hy))]
      rfl

/-- select_best picks the first move whose score attains the maximum,
whenever the maximum score exceeds the initial top_score of -2. -/
theorem select_best_eq_find {M : Type} (scored : List (M × Int)) (Mx : Int)
    (hmax : (scored.map Prod.snd).max? = some Mx) (hgt : -2 < Mx) :
    select_best scored = (scored.find? (fun ms => ms.2 == Mx)).map Prod.fst := by
  obtain ⟨hmem, hub⟩ := int_max?_eq_some_iff.1 hmax
  obtain ⟨x, hx, hxv⟩ := List.mem_map.1 hmem
  unfold select_best
  exact select_fold_first_max scored none (-2) Mx ⟨x, hx, hxv⟩
    (fun y hy => hub _ (List.mem_map_of_mem _ hy)) hgt

/-- map_option succeeds and computes the map when the function succeeds
pointwise. -/
theorem map_option_eq_map {A B : Type} (f : A → Option B) (g' : A → B)
    (l : List A) (h : ∀ a ∈ l, f a = some (g' a)) :
    map_option f l = some (l.map g') := by
  induction l with
  | nil => rfl
  | cons a t ih =>
    rw [map_option, h a (List.mem_cons_self _ _), bind_some_eq,
      ih (fun b hb => h b (List.mem_cons_of_mem _ hb)), bind_some_eq,
      List.map_cons]

/-- A successful map_option evaluation preserves the length. -/
theorem map_option_length {A B : Type} (f : A → Option B) (l : List A)
    (bs : List B) (h : map_option f l = some bs) : bs.length = l.length := by
  induction l generalizing bs with
  | nil => rw [map_option] at h; cases h; rfl
  | cons a t ih =>
    rw [map_option] at h
    cases hx : f a with
    | none => rw [hx, bind_none_eq] at h; cases h
    | some b =>
      rw [hx, bind_some_eq] at h
      cases hmt : map_option f t with
      | none => rw [hmt, bind_none_eq] at h; cases h
      | some bs' =>
        rw [hmt, bind_some_eq] at h
        cases h
        simp [ih bs' hmt]

/-- Every element of a successful map_option evaluation comes from an
element of the input list. -/
theorem map_option_mem {A B : Type} (f : A → Option B) (l : List A)
    (bs : List B) (h : map_option f l = some bs) :
    ∀ b ∈ bs, ∃ a ∈ l, f a = some b := by
  induction l generalizing bs with
  | nil => rw [map_option] at h; cases h; intro b hb; cases hb
  | cons a t ih =>
    rw [map_option] at h
    cases hx : f a with
    | none => rw [hx, bind_none_eq] at h; cases h
    | some b0 =>
      rw [hx, bind_some_eq] at h
      cases hmt : map_option f t with
      | none => rw [hmt, bind_none_eq] at h; cases h
      | some bs' =>
        rw [hmt, bind_some_eq] at h
        cases h
        intro b hb
        rcases List.mem_cons.1 hb with rfl | hb
        · exact ⟨a, List.mem_cons_self _ _, hx⟩
        · obtain ⟨a', ha', hfa'⟩ := ih bs' hmt b hb
          exact ⟨a', List.mem_cons_of_mem _ ha', hfa'⟩

/-- A successful map_option evaluation stays successful with the same
value when the function is replaced by one that agrees on every success. -/
theorem map_option_congr_some {A B : Type} (f f' : A → Option B) (l : List A)
    (bs : List B) (h : map_option f l = some bs)
    (hsub : ∀ a ∈ l, ∀ b, f a = some b → f' a = some b) :
    map_option f' l = some bs := by
  induction l generalizing bs with
  | nil => rw [map_option] at h ⊢; exact h
  | cons a t ih =>
    rw [map_option] at h
    cases hx : f a with
    | none => rw [hx, bind_none_eq] at h; cases h
    | some b0 =>
      rw [hx, bind_some_eq] at h
      cases hmt : map_option f t with
      | none => rw [hmt, bind_none_eq] at h; cases h
      | some bs' =>
        rw [hmt, bind_some_eq] at h
        rw [map_option, hsub a (List.mem_cons_self _ _) b0 hx, bind_some_eq,
          ih bs' hmt (fun c hc => hsub c (List.mem_cons_of_mem _ hc)),
          bind_some_eq]
        exact h

/-- recursive_minimax_scores is monotone in the fuel: a result obtained
within some fuel is returned unchanged for any larger fuel. -/
theorem rms_mono {S M K : Type} (g : GameI S M K) (p : Player) :
    ∀ fuel s v, recursive_minimax_scores g p fuel s = some v →
    ∀ fuel', fuel ≤ fuel' → recursive_minimax_scores g p fuel' s = some v := by
  intro fuel
  induction fuel with
  | zero => intro s v h; rw [recursive_minimax_scores] at h; cases h
  | succ f ih =>
    intro s v h fuel' hle
    obtain ⟨f', rfl⟩ : ∃ f', fuel' = f' + 1 :=
      ⟨fuel' - 1, by omega⟩
    have hff' : f ≤ f' := by omega
    rw [recursive_minimax_scores] at h ⊢
    by_cases hov : g.is_over s
    · rw [if_pos hov] at h ⊢; exact h
    · rw [if_neg hov] at h ⊢
      cases hmo : map_option
          (fun m => recursive_minimax_scores g p f (g.apply s m)) (g.moves s) with
      | none => rw [hmo, bind_none_eq] at h; cases h
      | some scores =>
        rw [hmo, bind_some_eq] at h
        rw [map_option_congr_some _ _ _ _ hmo
          (fun m _ w hw => ih (g.apply s m) w hw f' hff'), bind_some_eq]
        exact h

/-- Every defined recursive_minimax_scores value is either WIN = 1 or
LOSE = -1. -/
theorem rms_values {S M K : Type} (g : GameI S M K) (p : Player) :
    ∀ fuel s v, recursive_minimax_scores g p fuel s = some v →
    v = 1 ∨ v = -1 := by
  intro fuel
  induction fuel with
  | zero => intro s v h; rw [recursive_minimax_scores] at h; cases h
  | succ f ih =>
    intro s v h
    rw [recursive_minimax_scores] at h
    by_cases hov : g.is_over s
    · rw [if_pos hov] at h
      cases h
      unfold get_score GameState.WIN GameState.LOSE
      by_cases hw : g.winner s p
      · rw [if_pos hw]; exact Or.inl rfl
      · rw [if_neg hw]; exact Or.inr rfl
    · rw [if_neg hov] at h
      cases hmo : map_option
          (fun m => recursive_minimax_scores g p f (g.apply s m)) (g.moves s) with
      | none => rw [hmo, bind_none_eq] at h; cases h
      | some scores =>
        rw [hmo, bind_some_eq] at h
        have hvm : v ∈ scores := by
          by_cases hpl : g.player s = p
          · rw [if_pos hpl] at h
            exact (int_max?_eq_some_iff.1 h).1
          · rw [if_neg hpl] at h
            exact (int_min?_eq_some_iff.1 h).1
        obtain ⟨m, hm, hms⟩ := map_option_mem _ _ _ hmo v hvm
        exact ih (g.apply s m) v hms

/-
Reachability helpers for the engine-equivalence development: every child
of a reachable state is reachable, reachability from a reachable state
composes, and under a strictly decreasing height certificate the states
reachable from the root can be enumerated by a finite depth-bounded
unfolding of `children`.
-/

/-- A child of a reachable state is reachable through at least one move. -/
theorem reach_child {S M K : Type} (g : GameI S M K) (root : S) (s c : S)
    (hr : Reach g root s) (hc : c ∈ children g s) : Reach1 g root c := by
  rcases hr with rfl | h1
  · exact Reach1.seed hc
  · exact Reach1.step h1 hc

/-- Reachability composes through an intermediate reachable state. -/
theorem reach_trans {S M K : Type} (g : GameI S M K) (root t s : S)
    (ht : Reach g root t) (hs : Reach g t s) : Reach g root s := by
  rcases hs with rfl | h1
  · exact ht
  · right
    induction h1 with
    | seed hc => exact reach_child g root t _ ht hc
    | step _ hc ih => exact Reach1.step ih hc

/-- Every state reachable through at least one move is reachable from one
of the root's children. -/
theorem reach1_via_seed {S M K : Type} (g : GameI S M K) (root s : S)
    (h : Reach1 g root s) : ∃ c ∈ children g root, Reach g c s := by
  induction h with
  | seed hc => exact ⟨_, hc, Or.inl rfl⟩
  | step _ hc ih =>
    obtain ⟨c0, hc0, hr⟩ := ih
    exact ⟨c0, hc0, Or.inr (reach_child g c0 _ _ hr hc)⟩

/-- From a state with no children only the state itself is reachable. -/
theorem reach_self_of_no_children {S M K : Type} (g : GameI S M K) (t s : S)
    (h : Reach g t s) (hnil : children g t = []) : s = t := by
  rcases h with rfl | h1
  · rfl
  · obtain ⟨c, hc, _⟩ := reach1_via_seed g t s h1
    rw [hnil] at hc
    cases hc

/-- Reachability with an explicit move count, built up from the front. -/
inductive ReachN {S M K : Type} (g : GameI S M K) : Nat → S → S → Prop where
  | refl {t} : ReachN g 0 t t
  | head {k t c s} : c ∈ children g t → ReachN g k c s → ReachN g (k + 1) t s

/-- A counted path extends by one move at its end. -/
theorem reachN_snoc {S M K : Type} (g : GameI S M K) (k : Nat) (t s c : S)
    (h : ReachN g k t s) (hc : c ∈ children g s) : ReachN g (k + 1) t c := by
  induction h with
  | refl => exact ReachN.head hc ReachN.refl
  | head hd _ ih => exact ReachN.head hd (ih hc)

/-- Every reachable state is reachable by a counted path. -/
theorem reach_reachN {S M K : Type} (g : GameI S M K) (t s : S)
    (h : Reach g t s) : ∃ k, ReachN g k t s := by
  rcases h with rfl | h1
  · exact ⟨0, ReachN.refl⟩
  · induction h1 with
    | seed hc => exact ⟨1, ReachN.head hc ReachN.refl⟩
    | step _ hc ih =>
      obtain ⟨k, hk⟩ := ih
      exact ⟨k + 1, reachN_snoc g k _ _ _ hk hc⟩

/-- Under a height certificate that strictly decreases from every
root-reachable state to its children, a counted path from a root-reachable
state shrinks the height by at least its length. -/
theorem reachN_h_le {S M K : Type} (g : GameI S M K) (root : S) (h : S → Nat)
    (hdec : ∀ s, Reach g root s → ∀ c ∈ children g s, h c < h s)
    (k : Nat) (t s : S) (ht : Reach g root t) (hp : ReachN g k t s) :
    h s + k ≤ h t := by
  induction hp with
  | refl => omega
  | head hd hp' ih =>
    rename_i k' t' c' s'
    have hc : h c' < h t' := hdec t' ht c' hd
    have hcr : Reach g root c' := Or.inr (reach_child g root t' c' ht hd)
    have := ih hcr
    omega

/-- Depth-bounded unfolding of the child relation: all states reachable
from `t` by at most `f` moves, with repetitions. -/
def descend_list {S M K : Type} (g : GameI S M K) : Nat → S → List S
  | 0, t => [t]
  | f + 1, t => t :: (children g t).flatMap (descend_list g f)

/-- A counted path of length at most the depth bound lands in the
depth-bounded unfolding. -/
theorem reachN_mem_descend {S M K : Type} (g : GameI S M K) (k : Nat)
    (t s : S) (hp : ReachN g k t s) :
    ∀ f, k ≤ f → s ∈ descend_list g f t := by
  induction hp with
  | refl =>
    intro f _
    cases f with
    | zero => exact List.mem_singleton.2 rfl
    | succ f' => exact List.mem_cons_self _ _
  | head hd hp' ih =>
    rename_i k' t' c' s'
    intro f hf
    obtain ⟨f', rfl⟩ : ∃ f', f = f' + 1 := ⟨f - 1, by omega⟩
    rw [descend_list]
    exact List.mem_cons_of_mem _
      (List.mem_flatMap.2 ⟨c', hd, ih f' (by omega)⟩)

/-- Under a height certificate, every reachable state occurs in the
unfolding of depth `h root`. -/
theorem reach_mem_descend {S M K : Type} (g : GameI S M K) (root : S)
    (h : S → Nat)
    (hdec : ∀ s, Reach g root s → ∀ c ∈ children g s, h c < h s)
    (s : S) (hr : Reach g root s) : s ∈ descend_list g (h root) root := by
  obtain ⟨k, hk⟩ := reach_reachN g root s hr
  have := reachN_h_le g root h hdec k root s (Or.inl rfl) hk
  exact reachN_mem_descend g k root s hk (h root) (by omega)

/-
Memo-table helpers: `evaluated_state` is an association list, updated by
consing; lookups see the most recent entry for a key.
-/

/-- Looking up the key just inserted returns the inserted value. -/
theorem lookup_cons_self {K : Type} [DecidableEq K] (k : K) (v : Int)
    (es : List (K × Int)) : ((k, v) :: es).lookup k = some v := by
  simp only [List.lookup, beq_self_eq_true]

/-- Looking up a different key skips the inserted entry. -/
theorem lookup_cons_ne {K : Type} [DecidableEq K] (k k' : K) (v : Int)
    (es : List (K × Int)) (h : k' ≠ k) :
    ((k, v) :: es).lookup k' = es.lookup k' := by
  have hbeq : (k' == k) = false := beq_eq_false_iff_ne.2 h
  simp only [List.lookup, hbeq]

/-- Whether a state is memoized: its key has an entry in the table. -/
def keyed {S M K : Type} [DecidableEq K] (g : GameI S M K)
    (es : List (K × Int)) (s : S) : Bool :=
  (es.lookup (g.key s)).isSome

/-- Prepending entries never unmemoizes a state. -/
theorem keyed_grow {S M K : Type} [DecidableEq K] (g : GameI S M K)
    (pre es : List (K × Int)) (s : S) (h : keyed g es s = true) :
    keyed g (pre ++ es) s = true := by
  induction pre with
  | nil => exact h
  | cons e rest ih =>
    unfold keyed
    by_cases hk : g.key s = e.1
    · rw [List.cons_append, ← Prod.mk.eta (p := e), hk, lookup_cons_self]
      rfl
    · rw [List.cons_append, ← Prod.mk.eta (p := e), lookup_cons_ne _ _ _ _ hk]
      exact ih

/-- A lookup that succeeds still succeeds with the same value after
prepending entries with other keys, and inserting an entry for an
already-present key keeps the set of memoized states unchanged. -/
theorem keyed_cons_of_keyed_self {S M K : Type} [DecidableEq K]
    (g : GameI S M K) (es : List (K × Int)) (n s : S) (v : Int)
    (hn : keyed g es n = true) :
    keyed g ((g.key n, v) :: es) s = keyed g es s := by
  unfold keyed
  by_cases hk : g.key s = g.key n
  · rw [hk, lookup_cons_self]
    unfold keyed at hn
    rw [hk] at *
    rw [Option.isSome_some]
    exact hn.symm
  · rw [lookup_cons_ne _ _ _ _ hk]

/-
Engine equivalence on well-behaved game trees.  The assumptions are
exactly the preconditions of the specified equivalence: states reachable
from the root have pairwise distinct identities (`str`), the transition
graph is acyclic with a height certificate, and the leaves of the graph
are precisely the terminal states.
-/

/-- The preconditions of the engine-equivalence statement for a root
state: injective state identity on reachable states, a strictly
decreasing height certificate (acyclicity plus termination), and
"terminates in terminal states" (no moves exactly at terminal states). -/
structure EngineAssumptions {S M K : Type} (g : GameI S M K) (root : S)
    (h : S → Nat) : Prop where
  key_inj : ∀ s t, Reach g root s → Reach g root t → g.key s = g.key t → s = t
  hdec : ∀ s, Reach g root s → ∀ c ∈ children g s, h c < h s
  hterm : ∀ s, Reach g root s → g.is_over s = true → g.moves s = []
  hnt : ∀ s, Reach g root s → g.is_over s = false → g.moves s ≠ []

/-- Every reachable state's height is bounded by the root's. -/
theorem reach_h_le_root {S M K : Type} (g : GameI S M K) (root : S)
    (h : S → Nat) (hdec : ∀ s, Reach g root s → ∀ c ∈ children g s, h c < h s)
    (s : S) (hr : Reach g root s) : h s ≤ h root := by
  obtain ⟨k, hk⟩ := reach_reachN g root s hr
  have := reachN_h_le g root h hdec k root s (Or.inl rfl) hk
  omega

/-- Memo soundness: every entry a reachable state's key can see holds
that state's recursive minimax score. -/
def MSound {S M K : Type} [DecidableEq K] (g : GameI S M K) (p : Player)
    (root : S) (h : S → Nat) (es : List (K × Int)) : Prop :=
  ∀ s v, Reach g root s → es.lookup (g.key s) = some v →
    recursive_minimax_scores g p (h s + 1) s = some v

/-- Memo closure: a memoized reachable state is terminal or has all its
children memoized. -/
def MClosed {S M K : Type} [DecidableEq K] (g : GameI S M K)
    (root : S) (es : List (K × Int)) : Prop :=
  ∀ s, Reach g root s → keyed g es s = true →
    (g.is_over s = true ∨ ∀ c ∈ children g s, keyed g es c = true)

/-- Stack coverage: every state reachable through at least one move is
memoized or still below some stack entry. -/
def Comp {S M K : Type} [DecidableEq K] (g : GameI S M K)
    (root : S) (stack : List S) (es : List (K × Int)) : Prop :=
  ∀ s, Reach1 g root s → keyed g es s = true ∨ ∃ t ∈ stack, Reach g t s

/-- All stack entries are reachable through at least one move. -/
def StackR {S M K : Type} (g : GameI S M K) (root : S)
    (stack : List S) : Prop :=
  ∀ t ∈ stack, Reach1 g root t

/-- The invariant of the while loop of iterative_minimax_strategy. -/
structure LoopInv {S M K : Type} [DecidableEq K] (g : GameI S M K)
    (p : Player) (root : S) (h : S → Nat) (stack : List S)
    (es : List (K × Int)) : Prop where
  stackR : StackR g root stack
  msound : MSound g p root h es
  mclosed : MClosed g root es
  comp : Comp g root stack es

/-- Inserting a sound entry preserves memo soundness. -/
theorem msound_insert {S M K : Type} [DecidableEq K] (g : GameI S M K)
    (p : Player) (root : S) (h : S → Nat) (es : List (K × Int))
    (s₀ : S) (v₀ : Int)
    (hinj : ∀ s t, Reach g root s → Reach g root t → g.key s = g.key t → s = t)
    (hms : MSound g p root h es) (hr₀ : Reach g root s₀)
    (hv₀ : recursive_minimax_scores g p (h s₀ + 1) s₀ = some v₀) :
    MSound g p root h ((g.key s₀, v₀) :: es) := by
  intro s v hr hl
  by_cases hk : g.key s = g.key s₀
  · rw [hk, lookup_cons_self] at hl
    cases hl
    rw [hinj s s₀ hr hr₀ hk]
    exact hv₀
  · rw [lookup_cons_ne _ _ _ _ hk] at hl
    exact hms s v hr hl

/-- Inserting an entry for a terminal state, or for a state with all
children memoized, preserves memo closure. -/
theorem mclosed_insert {S M K : Type} [DecidableEq K] (g : GameI S M K)
    (root : S) (es : List (K × Int)) (s₀ : S) (v₀ : Int)
    (hinj : ∀ s t, Reach g root s → Reach g root t → g.key s = g.key t → s = t)
    (hmc : MClosed g root es) (hr₀ : Reach g root s₀)
    (h₀ : g.is_over s₀ = true ∨ ∀ c ∈ children g s₀, keyed g es c = true) :
    MClosed g root ((g.key s₀, v₀) :: es) := by
  intro s hr hks
  by_cases hk : g.key s = g.key s₀
  · rw [hinj s s₀ hr hr₀ hk]
    rcases h₀ with hov | hch
    · exact Or.inl hov
    · exact Or.inr (fun c hc =>
        keyed_grow g [(g.key s₀, v₀)] es c (hch c hc))
  · have hks' : keyed g es s = true := by
      unfold keyed at hks ⊢
      rw [lookup_cons_ne _ _ _ _ hk] at hks
      exact hks
    rcases hmc s hr hks' with hov | hch
    · exact Or.inl hov
    · exact Or.inr (fun c hc =>
        keyed_grow g [(g.key s₀, v₀)] es c (hch c hc))

/-- Downward closure: with a closed memo, every state reachable from a
memoized reachable state is memoized. -/
theorem mclosed_desc {S M K : Type} [DecidableEq K] (g : GameI S M K)
    (root : S) (es : List (K × Int))
    (hterm : ∀ s, Reach g root s → g.is_over s = true → g.moves s = [])
    (hmc : MClosed g root es) (s : S) (hr : Reach g root s)
    (hks : keyed g es s = true) :
    ∀ u, Reach g s u → keyed g es u = true := by
  intro u hu
  rcases hu with rfl | h1
  · exact hks
  · induction h1 with
    | seed hc =>
      rcases hmc s hr hks with hov | hch
      · rw [children, hterm s hr hov] at hc
        cases hc
      · exact hch _ hc
    | step hmid hc ih =>
      rename_i t c
      have hkt : keyed g es t = true := ih
      have hrt : Reach g root t := reach_trans g root s t hr (Or.inr hmid)
      rcases hmc t hrt hkt with hov | hch
      · rw [children, hterm t hrt hov] at hc
        cases hc
      · exact hch _ hc

/-- map_option succeeds when the function succeeds on every element. -/
theorem map_option_isSome {A B : Type} (f : A → Option B) (l : List A)
    (h : ∀ a ∈ l, (f a).isSome = true) : (map_option f l).isSome = true := by
  induction l with
  | nil => rfl
  | cons a t ih =>
    obtain ⟨b, hb⟩ := Option.isSome_iff_exists.1 (h a (List.mem_cons_self _ _))
    obtain ⟨bs, hbs⟩ := Option.isSome_iff_exists.1
      (ih (fun c hc => h c (List.mem_cons_of_mem _ hc)))
    rw [map_option, hb, bind_some_eq, hbs, bind_some_eq]
    rfl

/-- On a terminal state the recursive scorer returns the direct score. -/
theorem rms_terminal {S M K : Type} (g : GameI S M K) (p : Player)
    (f : Nat) (s : S) (hov : g.is_over s = true) :
    recursive_minimax_scores g p (f + 1) s = some (get_score g s p) := by
  rw [recursive_minimax_scores, if_pos hov]

/-- Under the engine assumptions the recursive scorer terminates within
fuel h s + 1 on every reachable state. -/
theorem rms_defined {S M K : Type} (g : GameI S M K) (p : Player)
    (root : S) (h : S → Nat)
    (hdec : ∀ s, Reach g root s → ∀ c ∈ children g s, h c < h s)
    (hnt : ∀ s, Reach g root s → g.is_over s = false → g.moves s ≠ []) :
    ∀ n s, h s = n → Reach g root s →
    ∃ v, recursive_minimax_scores g p (h s + 1) s = some v := by
  intro n
  induction n using Nat.strong_induction_on with
  | _ n ih =>
    intro s hn hr
    by_cases hov : g.is_over s
    · exact ⟨get_score g s p, rms_terminal g p (h s) s hov⟩
    · have hmv : g.moves s ≠ [] := hnt s hr (by simpa using hov)
      have hsome : ∀ m ∈ g.moves s,
          (recursive_minimax_scores g p (h s) (g.apply s m)).isSome = true := by
        intro m hm
        have hcm : g.apply s m ∈ children g s := List.mem_map_of_mem _ hm
        have hhc : h (g.apply s m) < h s := hdec s hr _ hcm
        have hrc : Reach g root (g.apply s m) :=
          Or.inr (reach_child g root s _ hr hcm)
        obtain ⟨v, hv⟩ := ih (h (g.apply s m)) (by omega) (g.apply s m) rfl hrc
        rw [rms_mono g p (h (g.apply s m) + 1) _ v hv (h s) (by omega)]
        rfl
      obtain ⟨scores, hscores⟩ := Option.isSome_iff_exists.1
        (map_option_isSome _ _ hsome)
      have hlen : scores.length = (g.moves s).length :=
        map_option_length _ _ _ hscores
      have hsne : scores ≠ [] := by
        intro h0
        rw [h0] at hlen
        exact hmv (List.length_eq_zero.1 hlen.symm)
      rw [recursive_minimax_scores, if_neg (by simpa using hov), hscores,
        bind_some_eq]
      by_cases hpl : g.player s = p
      · rw [if_pos hpl]
        cases hmx : scores.max? with
        | none => exact absurd (List.max?_eq_none_iff.1 hmx) hsne
        | some v => exact ⟨v, rfl⟩
      · rw [if_neg hpl]
        cases hmx : scores.min? with
        | none =>
          cases scores with
          | nil => exact absurd rfl hsne
          | cons a t => rw [List.min?] at hmx; cases hmx
        | some v => exact ⟨v, rfl⟩

/-- A defined node_get_score means every child is memoized. -/
theorem ngs_keyed {S M K : Type} [DecidableEq K] (g : GameI S M K)
    (p : Player) (es : List (K × Int)) (n : S) (v : Int)
    (h : node_get_score g p es n = some v) :
    ∀ c ∈ children g n, keyed g es c = true := by
  unfold node_get_score at h
  cases hmo : map_option (fun c => es.lookup (g.key c)) (children g n) with
  | none => rw [hmo, bind_none_eq] at h; cases h
  | some scores =>
    intro c hc
    obtain ⟨b, hb⟩ := map_option_forall_some _ _ _ hmo c hc
    unfold keyed
    rw [hb]
    rfl

/-- When every child of a reachable non-terminal state is memoized,
node_get_score computes exactly the recursive minimax score of the state
(with the height-certificate fuel). -/
theorem ngs_eq_rms {S M K : Type} [DecidableEq K] (g : GameI S M K)
    (p : Player) (root : S) (h : S → Nat)
    (hdec : ∀ s, Reach g root s → ∀ c ∈ children g s, h c < h s)
    (es : List (K × Int)) (n : S) (hr : Reach g root n)
    (hms : MSound g p root h es)
    (hck : ∀ c ∈ children g n, keyed g es c = true)
    (hov : g.is_over n = false) :
    node_get_score g p es n = recursive_minimax_scores g p (h n + 1) n := by
  have hlook : ∀ c ∈ children g n,
      es.lookup (g.key c) = some ((es.lookup (g.key c)).getD 0) := by
    intro c hc
    obtain ⟨x, hx⟩ := Option.isSome_iff_exists.1 (hck c hc)
    rw [hx]
    rfl
  have hmo : map_option (fun c => es.lookup (g.key c)) (children g n) =
      some ((children g n).map (fun c => (es.lookup (g.key c)).getD 0)) :=
    map_option_eq_map _ _ _ hlook
  have hrms : ∀ m ∈ g.moves n,
      recursive_minimax_scores g p (h n) (g.apply n m) =
        some ((es.lookup (g.key (g.apply n m))).getD 0) := by
    intro m hm
    have hcm : g.apply n m ∈ children g n := List.mem_map_of_mem _ hm
    have hrc : Reach g root (g.apply n m) :=
      Or.inr (reach_child g root n _ hr hcm)
    have hv := hms (g.apply n m) _ hrc (hlook _ hcm)
    exact rms_mono g p _ _ _ hv (h n) (by have := hdec n hr _ hcm; omega)
  have hmo' : map_option
      (fun m => recursive_minimax_scores g p (h n) (g.apply n m)) (g.moves n) =
      some ((g.moves n).map
        (fun m => (es.lookup (g.key (g.apply n m))).getD 0)) :=
    map_option_eq_map _ _ _ hrms
  have hmaps : (g.moves n).map
      (fun m => (es.lookup (g.key (g.apply n m))).getD 0) =
      (children g n).map (fun c => (es.lookup (g.key c)).getD 0) := by
    rw [children, List.map_map]
    rfl
  unfold node_get_score
  rw [recursive_minimax_scores, if_neg (by simp [hov]), hmo, hmo', hmaps]
  simp only [bind_some_eq]
  by_cases hpl : g.player n = p
  · rw [if_pos hpl, if_pos hpl, sort_id_getLast?]
  · rw [if_neg hpl, if_neg hpl, sort_id_head?]

/-
The termination measure of the while loop: the number of not-yet-memoized
entries of the depth-bounded reachable enumeration, refined by a
secondary count that shrinks within a round of equal memo size.
-/

/-- Number of unmemoized entries in the depth-bounded enumeration of the
reachable states. -/
def Ucount {S M K : Type} [DecidableEq K] (g : GameI S M K) (root : S)
    (h : S → Nat) (es : List (K × Int)) : Nat :=
  (descend_list g (h root) root).countP (fun s => !(keyed g es s))

/-- The unmemoized count strictly drops when the memo grows pointwise and
newly covers a state of the enumeration. -/
theorem Ucount_lt {S M K : Type} [DecidableEq K] (g : GameI S M K)
    (root : S) (h : S → Nat) (es es' : List (K × Int)) (s₀ : S)
    (hgrow : ∀ s, keyed g es s = true → keyed g es' s = true)
    (hmem : s₀ ∈ descend_list g (h root) root)
    (h₀ : keyed g es s₀ = false) (h₀' : keyed g es' s₀ = true) :
    Ucount g root h es' < Ucount g root h es := by
  obtain ⟨l1, l2, hDL⟩ := List.append_of_mem hmem
  unfold Ucount
  rw [hDL, List.countP_append, List.countP_append, List.countP_cons,
    List.countP_cons]
  have hmono : ∀ l : List S,
      l.countP (fun s => !(keyed g es' s)) ≤
      l.countP (fun s => !(keyed g es s)) := by
    intro l
    refine List.countP_mono_left (fun x _ hx => ?_)
    rcases hke : keyed g es x with _ | _
    · simp
    · rw [Bool.not_eq_true'] at hx
      rw [hgrow x hke] at hx
      cases hx
  have h1 := hmono l1
  have h2 := hmono l2
  simp only [h₀, h₀', Bool.not_true, Bool.not_false, Bool.false_eq_true,
    if_false, if_true, reduceIte]
  omega

/-- The unmemoized count is unchanged by re-inserting an entry whose key
is already memoized. -/
theorem Ucount_insert_keyed {S M K : Type} [DecidableEq K] (g : GameI S M K)
    (root : S) (h : S → Nat) (es : List (K × Int)) (n : S) (v : Int)
    (hn : keyed g es n = true) :
    Ucount g root h ((g.key n, v) :: es) = Ucount g root h es := by
  unfold Ucount
  refine List.countP_congr (fun x _ => ?_)
  rw [keyed_cons_of_keyed_self g es n x v hn]

/-- The secondary measure: height of the next node to be popped when it
is unmemoized, and a stack-length bound past the heights otherwise. -/
def nuM {S M K : Type} [DecidableEq K] (g : GameI S M K) (root : S)
    (h : S → Nat) (stack : List S) (es : List (K × Int)) : Nat :=
  match stack.getLast? with
  | none => 0
  | some n => if keyed g es n then (h root + 1) + stack.length else h n + 1

/-- _evaluate_and_add on a terminal node memoizes its direct score. -/
theorem ea_over_eq {S M K : Type} [DecidableEq K] (g : GameI S M K)
    (p : Player) (n : S) (stack : List S) (es : List (K × Int))
    (hov : g.is_over n = true) :
    _evaluate_and_add g p n stack es =
      (stack, (g.key n, get_score g n p) :: es) := by
  unfold _evaluate_and_add
  rw [if_pos hov]

/-- _evaluate_and_add on a non-terminal node with a defined
node_get_score memoizes that score. -/
theorem ea_some_eq {S M K : Type} [DecidableEq K] (g : GameI S M K)
    (p : Player) (n : S) (stack : List S) (es : List (K × Int)) (v : Int)
    (hov : g.is_over n = false) (hngs : node_get_score g p es n = some v) :
    _evaluate_and_add g p n stack es = (stack, (g.key n, v) :: es) := by
  unfold _evaluate_and_add
  rw [if_neg (by simp [hov]), hngs]

/-- _evaluate_and_add on a non-terminal node with an undefined
node_get_score pushes the node back. -/
theorem ea_none_eq {S M K : Type} [DecidableEq K] (g : GameI S M K)
    (p : Player) (n : S) (stack : List S) (es : List (K × Int))
    (hov : g.is_over n = false) (hngs : node_get_score g p es n = none) :
    _evaluate_and_add g p n stack es = (stack ++ [n], es) := by
  unfold _evaluate_and_add
  rw [if_neg (by simp [hov]), hngs]

/-- One application of the child-processing fold, with the pair
projections reduced. -/
theorem fold_ea_step {S M K : Type} [DecidableEq K] (g : GameI S M K)
    (p : Player) (c : S) (stack : List S) (es : List (K × Int)) :
    _evaluate_and_add g p c (Prod.mk stack es).1 (Prod.mk stack es).2 =
      _evaluate_and_add g p c stack es := rfl

/-- A memoized reachable non-terminal state has a defined
node_get_score. -/
theorem ngs_some_of_keyed {S M K : Type} [DecidableEq K] (g : GameI S M K)
    (p : Player) (root : S) (h : S → Nat)
    (A : EngineAssumptions g root h) (es : List (K × Int)) (n : S)
    (hr : Reach g root n) (hms : MSound g p root h es)
    (hmc : MClosed g root es) (hkn : keyed g es n = true)
    (hov : g.is_over n = false) :
    ∃ v, node_get_score g p es n = some v := by
  rcases hmc n hr hkn with hov' | hch
  · rw [hov'] at hov; cases hov
  · obtain ⟨v, hv⟩ := rms_defined g p root h A.hdec A.hnt (h n) n rfl hr
    exact ⟨v, by rw [ngs_eq_rms g p root h A.hdec es n hr hms hch hov]; exact hv⟩

/-- A non-terminal state whose node_get_score is undefined is not
memoized. -/
theorem unkeyed_of_ngs_none {S M K : Type} [DecidableEq K] (g : GameI S M K)
    (p : Player) (root : S) (h : S → Nat)
    (A : EngineAssumptions g root h) (es : List (K × Int)) (n : S)
    (hr : Reach g root n) (hms : MSound g p root h es)
    (hmc : MClosed g root es) (hov : g.is_over n = false)
    (hngs : node_get_score g p es n = none) : keyed g es n = false := by
  rcases hkn : keyed g es n with _ | _
  · rfl
  · obtain ⟨v, hv⟩ := ngs_some_of_keyed g p root h A es n hr hms hmc hkn hov
    rw [hv] at hngs
    cases hngs

/-- The value memoized for a reachable non-terminal node by
node_get_score is its recursive minimax score. -/
theorem ngs_sound {S M K : Type} [DecidableEq K] (g : GameI S M K)
    (p : Player) (root : S) (h : S → Nat)
    (A : EngineAssumptions g root h) (es : List (K × Int)) (n : S) (v : Int)
    (hr : Reach g root n) (hms : MSound g p root h es)
    (hov : g.is_over n = false) (hngs : node_get_score g p es n = some v) :
    recursive_minimax_scores g p (h n + 1) n = some v := by
  rw [← ngs_eq_rms g p root h A.hdec es n hr hms
    (ngs_keyed g p es n v hngs) hov]
  exact hngs

/-- Invariant preservation and progress accounting for the fold that
processes the unevaluated children of a popped node. -/
theorem fold_ea_inv {S M K : Type} [DecidableEq K] (g : GameI S M K)
    (p : Player) (root : S) (h : S → Nat)
    (A : EngineAssumptions g root h) :
    ∀ (cs stack : List S) (es : List (K × Int)),
    (∀ c ∈ cs, Reach1 g root c) →
    MSound g p root h es → MClosed g root es → StackR g root stack →
    ∀ stack' es',
      cs.foldl (fun sm c => _evaluate_and_add g p c sm.1 sm.2) (stack, es) =
        (stack', es') →
    MSound g p root h es' ∧ MClosed g root es' ∧ StackR g root stack' ∧
    (∀ s, keyed g es s = true → keyed g es' s = true) ∧
    (∃ pushed, stack' = stack ++ pushed) ∧
    (((∀ s, keyed g es' s = keyed g es s) ∧
      ∃ pushed, stack' = stack ++ pushed ∧
        (∀ c ∈ pushed, c ∈ cs ∧ keyed g es c = false) ∧
        (∀ c ∈ cs, keyed g es c = false → c ∈ pushed)) ∨
      (∃ s₀, Reach g root s₀ ∧ keyed g es s₀ = false ∧
        keyed g es' s₀ = true)) := by
  intro cs
  induction cs with
  | nil =>
    intro stack es _ hms hmc hsr stack' es' hfold
    rw [List.foldl_nil] at hfold
    cases hfold
    refine ⟨hms, hmc, hsr, fun s hs => hs, ⟨[], by simp⟩, Or.inl ?_⟩
    exact ⟨fun s => rfl, [], by simp, by simp, by simp⟩
  | cons c cs' ih =>
    intro stack es hcs hms hmc hsr stack' es' hfold
    rw [List.foldl_cons, fold_ea_step] at hfold
    have hrc : Reach g root c := Or.inr (hcs c (List.mem_cons_self _ _))
    have hcs' : ∀ b ∈ cs', Reach1 g root b :=
      fun b hb => hcs b (List.mem_cons_of_mem _ hb)
    by_cases hov : g.is_over c = true
    · -- terminal child: memoized directly
      rw [ea_over_eq g p c stack es hov] at hfold
      have hms₁ := msound_insert g p root h es c (get_score g c p) A.key_inj
        hms hrc (rms_terminal g p (h c) c hov)
      have hmc₁ := mclosed_insert g root es c (get_score g c p) A.key_inj
        hmc hrc (Or.inl hov)
      obtain ⟨ih1, ih2, ih3, ih4, ih5, ih6⟩ :=
        ih stack _ hcs' hms₁ hmc₁ hsr stack' es' hfold
      have hgrow1 : ∀ s, keyed g es s = true →
          keyed g ((g.key c, get_score g c p) :: es) s = true :=
        fun s hs => keyed_grow g [(g.key c, get_score g c p)] es s hs
      refine ⟨ih1, ih2, ih3, fun s hs => ih4 s (hgrow1 s hs), ih5, ?_⟩
      rcases hkc : keyed g es c with _ | _
      · -- the child becomes newly memoized
        refine Or.inr ⟨c, hrc, hkc, ih4 c ?_⟩
        unfold keyed
        rw [lookup_cons_self]
        rfl
      · -- re-insertion of an already-memoized key
        have hpt : ∀ s, keyed g ((g.key c, get_score g c p) :: es) s =
            keyed g es s :=
          fun s => keyed_cons_of_keyed_self g es c s _ hkc
        rcases ih6 with ⟨hpe, pushed, hstk, hmem, hcov⟩ | ⟨s₀, h1, h2, h3⟩
        · refine Or.inl ⟨fun s => (hpe s).trans (hpt s), pushed, hstk,
            ?_, ?_⟩
          · intro b hb
            obtain ⟨hb1, hb2⟩ := hmem b hb
            exact ⟨List.mem_cons_of_mem _ hb1, (hpt b).symm.trans hb2⟩
          · intro b hb hbk
            rcases List.mem_cons.1 hb with rfl | hb'
            · rw [hbk] at hkc; cases hkc
            · exact hcov b hb' ((hpt b).trans hbk)
        · exact Or.inr ⟨s₀, h1, (hpt s₀).symm.trans h2, h3⟩
    · have hov' : g.is_over c = false := by simpa using hov
      cases hngs : node_get_score g p es c with
      | some v =>
        -- all children memoized: the child is memoized with its score
        rw [ea_some_eq g p c stack es v hov' hngs] at hfold
        have hms₁ := msound_insert g p root h es c v A.key_inj hms hrc
          (ngs_sound g p root h A es c v hrc hms hov' hngs)
        have hmc₁ := mclosed_insert g root es c v A.key_inj hmc hrc
          (Or.inr (ngs_keyed g p es c v hngs))
        obtain ⟨ih1, ih2, ih3, ih4, ih5, ih6⟩ :=
          ih stack _ hcs' hms₁ hmc₁ hsr stack' es' hfold
        have hgrow1 : ∀ s, keyed g es s = true →
            keyed g ((g.key c, v) :: es) s = true :=
          fun s hs => keyed_grow g [(g.key c, v)] es s hs
        refine ⟨ih1, ih2, ih3, fun s hs => ih4 s (hgrow1 s hs), ih5, ?_⟩
        rcases hkc : keyed g es c with _ | _
        · refine Or.inr ⟨c, hrc, hkc, ih4 c ?_⟩
          unfold keyed
          rw [lookup_cons_self]
          rfl
        · have hpt : ∀ s, keyed g ((g.key c, v) :: es) s = keyed g es s :=
            fun s => keyed_cons_of_keyed_self g es c s _ hkc
          rcases ih6 with ⟨hpe, pushed, hstk, hmem, hcov⟩ | ⟨s₀, h1, h2, h3⟩
          · refine Or.inl ⟨fun s => (hpe s).trans (hpt s), pushed, hstk,
              ?_, ?_⟩
            · intro b hb
              obtain ⟨hb1, hb2⟩ := hmem b hb
              exact ⟨List.mem_cons_of_mem _ hb1, (hpt b).symm.trans hb2⟩
            · intro b hb hbk
              rcases List.mem_cons.1 hb with rfl | hb'
              · rw [hbk] at hkc; cases hkc
              · exact hcov b hb' ((hpt b).trans hbk)
          · exact Or.inr ⟨s₀, h1, (hpt s₀).symm.trans h2, h3⟩
      | none =>
        -- some grandchild missing: the child is pushed back
        rw [ea_none_eq g p c stack es hov' hngs] at hfold
        have hkc : keyed g es c = false :=
          unkeyed_of_ngs_none g p root h A es c hrc hms hmc hov' hngs
        have hsr₁ : StackR g root (stack ++ [c]) := by
          intro t ht
          rcases List.mem_append.1 ht with ht | ht
          · exact hsr t ht
          · rw [List.mem_singleton.1 ht]
            exact hcs c (List.mem_cons_self _ _)
        obtain ⟨ih1, ih2, ih3, ih4, ih5, ih6⟩ :=
          ih (stack ++ [c]) es hcs' hms hmc hsr₁ stack' es' hfold
        obtain ⟨pushed0, hpushed0⟩ := ih5
        refine ⟨ih1, ih2, ih3, ih4,
          ⟨c :: pushed0, by rw [hpushed0, List.append_assoc]; rfl⟩, ?_⟩
        rcases ih6 with ⟨hpe, pushed, hstk, hmem, hcov⟩ | ⟨s₀, h1, h2, h3⟩
        · refine Or.inl ⟨hpe, c :: pushed,
            by rw [hstk, List.append_assoc]; rfl, ?_, ?_⟩
          · intro b hb
            rcases List.mem_cons.1 hb with rfl | hb'
            · exact ⟨List.mem_cons_self _ _, hkc⟩
            · obtain ⟨hb1, hb2⟩ := hmem b hb'
              exact ⟨List.mem_cons_of_mem _ hb1, hb2⟩
          · intro b hb hbk
            rcases List.mem_cons.1 hb with rfl | hb'
            · exact List.mem_cons_self _ _
            · exact List.mem_cons_of_mem _ (hcov b hb' hbk)
        · exact Or.inr ⟨s₀, h1, h2, h3⟩

/-- The filter predicate of iter_step is the negation of `keyed`. -/
theorem isNone_eq_not_keyed {S M K : Type} [DecidableEq K] (g : GameI S M K)
    (es : List (K × Int)) (c : S) :
    (es.lookup (g.key c)).isNone = !(keyed g es c) := by
  unfold keyed
  cases es.lookup (g.key c) <;> rfl

/-- iter_step on a terminal node with no children just memoizes it. -/
theorem iter_step_terminal_eq {S M K : Type} [DecidableEq K]
    (g : GameI S M K) (p : Player) (n : S) (stack : List S)
    (es : List (K × Int)) (hov : g.is_over n = true)
    (hch : children g n = []) :
    iter_step g p n stack es = (stack, (g.key n, get_score g n p) :: es) := by
  unfold iter_step
  simp only [ea_over_eq g p n stack es hov, hch, List.filter_nil,
    List.foldl_nil]

/-- iter_step on a node whose node_get_score is defined memoizes it and
processes no children (they are all memoized already). -/
theorem iter_step_some_eq {S M K : Type} [DecidableEq K]
    (g : GameI S M K) (p : Player) (n : S) (stack : List S)
    (es : List (K × Int)) (v : Int) (hov : g.is_over n = false)
    (hngs : node_get_score g p es n = some v) :
    iter_step g p n stack es = (stack, (g.key n, v) :: es) := by
  unfold iter_step
  simp only [ea_some_eq g p n stack es v hov hngs]
  have hfil : (children g n).filter
      (fun c => (((g.key n, v) :: es).lookup (g.key c)).isNone) = [] := by
    refine List.filter_eq_nil_iff.2 (fun c hc => ?_)
    rw [isNone_eq_not_keyed]
    have := keyed_grow g [(g.key n, v)] es c (ngs_keyed g p es n v hngs c hc)
    rw [List.singleton_append] at this
    rw [this]
    simp
  rw [hfil, List.foldl_nil]

/-- iter_step on a node whose node_get_score is undefined pushes the node
back and processes its unmemoized children. -/
theorem iter_step_none_eq {S M K : Type} [DecidableEq K]
    (g : GameI S M K) (p : Player) (n : S) (stack : List S)
    (es : List (K × Int)) (hov : g.is_over n = false)
    (hngs : node_get_score g p es n = none) :
    iter_step g p n stack es =
      ((children g n).filter (fun c => ((es.lookup (g.key c)).isNone))).foldl
        (fun sm c => _evaluate_and_add g p c sm.1 sm.2) (stack ++ [n], es) := by
  unfold iter_step
  simp only [ea_none_eq g p n stack es hov hngs]

/-- The secondary measure on an empty stack. -/
theorem nuM_eq_none {S M K : Type} [DecidableEq K] (g : GameI S M K)
    (root : S) (h : S → Nat) (stack : List S) (es : List (K × Int))
    (hlast : stack.getLast? = none) : nuM g root h stack es = 0 := by
  unfold nuM
  rw [hlast]

/-- The secondary measure on a non-empty stack. -/
theorem nuM_eq_some {S M K : Type} [DecidableEq K] (g : GameI S M K)
    (root : S) (h : S → Nat) (stack : List S) (es : List (K × Int)) (n : S)
    (hlast : stack.getLast? = some n) :
    nuM g root h stack es =
      if keyed g es n then (h root + 1) + stack.length else h n + 1 := by
  unfold nuM
  rw [hlast]

/-- Popping the top of the stack shrinks the secondary measure when the
popped node is memoized and the memoized-state set does not change. -/
theorem nu_pop_lt {S M K : Type} [DecidableEq K] (g : GameI S M K)
    (root : S) (h : S → Nat) (rest : List S) (n : S)
    (es es' : List (K × Int))
    (hdec : ∀ s, Reach g root s → ∀ c ∈ children g s, h c < h s)
    (hpt : ∀ s, keyed g es' s = keyed g es s)
    (hsr : StackR g root rest) (hkn : keyed g es n = true) :
    nuM g root h rest es' < nuM g root h (rest ++ [n]) es := by
  have hnu : nuM g root h (rest ++ [n]) es =
      (h root + 1) + (rest.length + 1) := by
    rw [nuM_eq_some g root h _ es n (List.getLast?_concat rest)]
    simp only [hkn, if_true, List.length_append, List.length_singleton]
  rw [hnu]
  cases hlast : rest.getLast? with
  | none =>
    rw [nuM_eq_none g root h rest es' hlast]
    omega
  | some t =>
    have htr : t ∈ rest := List.mem_of_mem_getLast? hlast
    have hht : h t ≤ h root :=
      reach_h_le_root g root h hdec t (Or.inr (hsr t htr))
    rw [nuM_eq_some g root h rest es' t hlast, hpt t]
    rcases hkt : keyed g es t with _ | _
    · simp only [Bool.false_eq_true, if_false]
      omega
    · simp only [if_true]
      omega

/-- One iteration of the while loop preserves the loop invariant and
shrinks the termination measure (unmemoized count, then secondary
measure). -/
theorem step_spec {S M K : Type} [DecidableEq K] (g : GameI S M K)
    (p : Player) (root : S) (h : S → Nat) (A : EngineAssumptions g root h)
    (n : S) (rest : List S) (es : List (K × Int))
    (hinv : LoopInv g p root h (rest ++ [n]) es) :
    ∀ stack' es', iter_step g p n rest es = (stack', es') →
    LoopInv g p root h stack' es' ∧
    (Ucount g root h es' < Ucount g root h es ∨
      (Ucount g root h es' = Ucount g root h es ∧
        nuM g root h stack' es' < nuM g root h (rest ++ [n]) es)) := by
  have hrn : Reach1 g root n := hinv.stackR n (by simp)
  have hr : Reach g root n := Or.inr hrn
  have hsrr : StackR g root rest :=
    fun t ht => hinv.stackR t (List.mem_append_left _ ht)
  intro stack' es' hstep
  by_cases hov : g.is_over n = true
  · -- terminal node: memoize its direct score, no children
    have hch : children g n = [] := by
      rw [children, A.hterm n hr hov, List.map_nil]
    rw [iter_step_terminal_eq g p n rest es hov hch] at hstep
    cases hstep
    have hkeyn : keyed g ((g.key n, get_score g n p) :: es) n = true := by
      unfold keyed
      rw [lookup_cons_self]
      rfl
    refine ⟨⟨hsrr,
      msound_insert g p root h es n _ A.key_inj hinv.msound hr
        (rms_terminal g p (h n) n hov),
      mclosed_insert g root es n _ A.key_inj hinv.mclosed hr (Or.inl hov),
      ?_⟩, ?_⟩
    · intro s hs
      rcases hinv.comp s hs with hk | ⟨t, ht, hts⟩
      · exact Or.inl (keyed_grow g [(g.key n, get_score g n p)] es s hk)
      · rcases List.mem_append.1 ht with ht' | ht'
        · exact Or.inr ⟨t, ht', hts⟩
        · rw [List.mem_singleton.1 ht'] at hts
          rw [reach_self_of_no_children g n s hts hch]
          exact Or.inl hkeyn
    · rcases hkn : keyed g es n with _ | _
      · exact Or.inl (Ucount_lt g root h es _ n
          (fun s hs => keyed_grow g [(g.key n, get_score g n p)] es s hs)
          (reach_mem_descend g root h A.hdec n hr) hkn hkeyn)
      · exact Or.inr ⟨Ucount_insert_keyed g root h es n _ hkn,
          nu_pop_lt g root h rest n es _ A.hdec
            (fun s => keyed_cons_of_keyed_self g es n s _ hkn) hsrr hkn⟩
  · have hov' : g.is_over n = false := by simpa using hov
    cases hngs : node_get_score g p es n with
    | some v =>
      -- all children memoized: memoize the node's score
      rw [iter_step_some_eq g p n rest es v hov' hngs] at hstep
      cases hstep
      have hchk := ngs_keyed g p es n v hngs
      have hkeyn : keyed g ((g.key n, v) :: es) n = true := by
        unfold keyed
        rw [lookup_cons_self]
        rfl
      have hmc' := mclosed_insert g root es n v A.key_inj hinv.mclosed hr
        (Or.inr hchk)
      refine ⟨⟨hsrr,
        msound_insert g p root h es n v A.key_inj hinv.msound hr
          (ngs_sound g p root h A es n v hr hinv.msound hov' hngs),
        hmc', ?_⟩, ?_⟩
      · intro s hs
        rcases hinv.comp s hs with hk | ⟨t, ht, hts⟩
        · exact Or.inl (keyed_grow g [(g.key n, v)] es s hk)
        · rcases List.mem_append.1 ht with ht' | ht'
          · exact Or.inr ⟨t, ht', hts⟩
          · rw [List.mem_singleton.1 ht'] at hts
            rcases hts with rfl | h1
            · exact Or.inl hkeyn
            · obtain ⟨c, hc, hcs⟩ := reach1_via_seed g n s h1
              have hrc : Reach g root c :=
                Or.inr (reach_child g root n c hr hc)
              have hkc' : keyed g ((g.key n, v) :: es) c = true :=
                keyed_grow g [(g.key n, v)] es c (hchk c hc)
              exact Or.inl (mclosed_desc g root _ A.hterm hmc' c hrc hkc'
                s hcs)
      · rcases hkn : keyed g es n with _ | _
        · exact Or.inl (Ucount_lt g root h es _ n
            (fun s hs => keyed_grow g [(g.key n, v)] es s hs)
            (reach_mem_descend g root h A.hdec n hr) hkn hkeyn)
        · exact Or.inr ⟨Ucount_insert_keyed g root h es n v hkn,
            nu_pop_lt g root h rest n es _ A.hdec
              (fun s => keyed_cons_of_keyed_self g es n s _ hkn) hsrr hkn⟩
    | none =>
      -- some grandchild missing: push the node back, process the
      -- unmemoized children
      rw [iter_step_none_eq g p n rest es hov' hngs] at hstep
      have hkn : keyed g es n = false :=
        unkeyed_of_ngs_none g p root h A es n hr hinv.msound hinv.mclosed
          hov' hngs
      have hcsr : ∀ c ∈ (children g n).filter
          (fun c => ((es.lookup (g.key c)).isNone)), Reach1 g root c :=
        fun c hc => reach_child g root n c hr (List.mem_filter.1 hc).1
      obtain ⟨f1, f2, f3, f4, f5, f6⟩ := fold_ea_inv g p root h A _
        (rest ++ [n]) es hcsr hinv.msound hinv.mclosed hinv.stackR
        stack' es' hstep
      have hex : ∃ c ∈ children g n, keyed g es c = false := by
        by_contra hall
        have hch : ∀ c ∈ children g n, keyed g es c = true := by
          intro c hc
          rcases hkc : keyed g es c with _ | _
          · exact absurd ⟨c, hc, hkc⟩ hall
          · rfl
        obtain ⟨w, hw⟩ := rms_defined g p root h A.hdec A.hnt (h n) n rfl hr
        rw [ngs_eq_rms g p root h A.hdec es n hr hinv.msound hch hov',
          hw] at hngs
        cases hngs
      obtain ⟨cstar, hcsm, hcsu⟩ := hex
      have hcstar_cs : cstar ∈ (children g n).filter
          (fun c => ((es.lookup (g.key c)).isNone)) :=
        List.mem_filter.2 ⟨hcsm, by rw [isNone_eq_not_keyed, hcsu]; rfl⟩
      obtain ⟨pushed0, hpushed0⟩ := f5
      refine ⟨⟨f3, f1, f2, ?_⟩, ?_⟩
      · intro s hs
        rcases hinv.comp s hs with hk | ⟨t, ht, hts⟩
        · exact Or.inl (f4 s hk)
        · exact Or.inr ⟨t, by rw [hpushed0]; exact List.mem_append_left _ ht,
            hts⟩
      · rcases f6 with ⟨hpe, pushed, hstk, hmem, hcov⟩ | ⟨s₀, hs1, hs2, hs3⟩
        · refine Or.inr ⟨List.countP_congr (fun x _ => by rw [hpe x]), ?_⟩
          have hclm : cstar ∈ pushed := hcov cstar hcstar_cs hcsu
          have hpne : pushed ≠ [] := List.ne_nil_of_mem hclm
          have hlast' : stack'.getLast? = some (pushed.getLast hpne) := by
            rw [hstk, List.getLast?_append,
              List.getLast?_eq_getLast pushed hpne]
            rfl
          obtain ⟨hlcs, hlunk⟩ := hmem (pushed.getLast hpne)
            (List.getLast_mem hpne)
          have hlch : pushed.getLast hpne ∈ children g n :=
            (List.mem_filter.1 hlcs).1
          have hlh : h (pushed.getLast hpne) < h n := A.hdec n hr _ hlch
          rw [nuM_eq_some g root h stack' es' _ hlast',
            nuM_eq_some g root h _ es n (List.getLast?_concat rest)]
          rw [hpe _, hlunk, hkn]
          simp only [Bool.false_eq_true, if_false]
          omega
        · exact Or.inl (Ucount_lt g root h es es' s₀ f4
            (reach_mem_descend g root h A.hdec s₀ hs1) hs2 hs3)

/-- When the stack has emptied, the loop returns the memo, which covers
every reachable state soundly. -/
theorem loop_done {S M K : Type} [DecidableEq K] (g : GameI S M K)
    (p : Player) (root : S) (h : S → Nat) (stack : List S)
    (es : List (K × Int)) (hinv : LoopInv g p root h stack es)
    (hlast : stack.getLast? = none) :
    ∃ f es', iter_loop g p f stack es = some es' ∧
      MSound g p root h es' ∧
      ∀ s, Reach1 g root s → keyed g es' s = true := by
  rw [List.getLast?_eq_none_iff] at hlast
  refine ⟨0, es, by rw [hlast]; rfl, hinv.msound, fun s hs => ?_⟩
  rcases hinv.comp s hs with hk | ⟨t, ht, -⟩
  · exact hk
  · rw [hlast] at ht
    cases ht

/-- The while loop terminates with a sound and complete memo from any
state satisfying the loop invariant; proof by well-founded descent on the
unmemoized count, then on the secondary measure. -/
theorem loop_correct {S M K : Type} [DecidableEq K] (g : GameI S M K)
    (p : Player) (root : S) (h : S → Nat) (A : EngineAssumptions g root h) :
    ∀ U ν (stack : List S) (es : List (K × Int)),
    LoopInv g p root h stack es →
    Ucount g root h es = U → nuM g root h stack es ≤ ν →
    ∃ f es', iter_loop g p f stack es = some es' ∧
      MSound g p root h es' ∧
      ∀ s, Reach1 g root s → keyed g es' s = true := by
  intro U
  induction U using Nat.strong_induction_on with
  | _ U ihU =>
    intro ν
    induction ν with
    | zero =>
      intro stack es hinv hU hν
      cases hlast : stack.getLast? with
      | none => exact loop_done g p root h stack es hinv hlast
      | some n =>
        rw [nuM_eq_some g root h stack es n hlast] at hν
        rcases hkn : keyed g es n with _ | _ <;> rw [hkn] at hν
        · simp only [Bool.false_eq_true, if_false] at hν
          omega
        · simp only [if_true] at hν
          omega
    | succ ν ihν =>
      intro stack es hinv hU hν
      cases hlast : stack.getLast? with
      | none => exact loop_done g p root h stack es hinv hlast
      | some n =>
        have hne : stack ≠ [] := by
          rintro rfl
          cases hlast
        have hstack_eq : stack.dropLast ++ [n] = stack := by
          have h1 := List.dropLast_append_getLast hne
          have h2 : stack.getLast hne = n := by
            have := List.getLast?_eq_getLast stack hne
            rw [hlast] at this
            exact (Option.some.inj this).symm
          rw [h2] at h1
          exact h1
        have hinv' : LoopInv g p root h (stack.dropLast ++ [n]) es := by
          rw [hstack_eq]
          exact hinv
        obtain ⟨hinv1, hprog⟩ := step_spec g p root h A n stack.dropLast es
          hinv' (iter_step g p n stack.dropLast es).1
          (iter_step g p n stack.dropLast es).2 rfl
        rcases hprog with hUlt | ⟨hUeq, hνlt⟩
        · obtain ⟨f, es', hloop, hms, hcomp⟩ := ihU
            (Ucount g root h (iter_step g p n stack.dropLast es).2)
            (by rw [← hU]; exact hUlt)
            (nuM g root h (iter_step g p n stack.dropLast es).1
              (iter_step g p n stack.dropLast es).2)
            (iter_step g p n stack.dropLast es).1
            (iter_step g p n stack.dropLast es).2
            hinv1 rfl (le_refl _)
          refine ⟨f + 1, es', ?_, hms, hcomp⟩
          rw [iter_loop, hlast]
          exact hloop
        · rw [hstack_eq] at hνlt
          obtain ⟨f, es', hloop, hms, hcomp⟩ := ihν
            (iter_step g p n stack.dropLast es).1
            (iter_step g p n stack.dropLast es).2
            hinv1 (hUeq.trans hU) (by omega)
          refine ⟨f + 1, es', ?_, hms, hcomp⟩
          rw [iter_loop, hlast]
          exact hloop

/-- The while loop is monotone in the fuel: once it finishes within some
fuel it returns the same memo for any larger fuel. -/
theorem iter_loop_mono {S M K : Type} [DecidableEq K] (g : GameI S M K)
    (p : Player) :
    ∀ (f : Nat) (stack : List S) (es r : List (K × Int)),
    iter_loop g p f stack es = some r →
    ∀ f', f ≤ f' → iter_loop g p f' stack es = some r := by
  intro f
  induction f with
  | zero =>
    intro stack es r h f' _
    rw [iter_loop] at h
    by_cases hemp : stack.isEmpty
    · rw [if_pos hemp] at h
      cases f' with
      | zero => rw [iter_loop, if_pos hemp]; exact h
      | succ f'' =>
        rw [iter_loop]
        have hlast : stack.getLast? = none := by
          rw [List.isEmpty_iff] at hemp
          rw [hemp]
          rfl
        rw [hlast]
        exact h
    · rw [if_neg hemp] at h
      cases h
  | succ f ih =>
    intro stack es r h f' hle
    obtain ⟨f'', rfl⟩ : ∃ f'', f' = f'' + 1 := ⟨f' - 1, by omega⟩
    rw [iter_loop] at h
    rw [iter_loop]
    cases hlast : stack.getLast? with
    | none =>
      rw [hlast] at h
      exact h
    | some n =>
      rw [hlast] at h
      exact ih _ _ r h f'' (by omega)

/-- The seed stack of iterative_minimax_strategy is the root's child
list. -/
theorem strategy_seeds_eq {S M K : Type} (g : GameI S M K) (root : S) :
    ((g.moves root).map (fun m => (m, g.apply root m))).map
      (fun x => x.2) = children g root := by
  rw [children, List.map_map]
  rfl

/-- The loop invariant holds at loop entry: the stack is the root's child
list and the memo is empty. -/
theorem init_inv {S M K : Type} [DecidableEq K] (g : GameI S M K)
    (p : Player) (root : S) (h : S → Nat) :
    LoopInv g p root h (children g root) [] := by
  refine ⟨fun t ht => Reach1.seed ht, ?_, ?_, ?_⟩
  · intro s v _ hl
    cases hl
  · intro s _ hk
    rw [show keyed g ([] : List (K × Int)) s = false from rfl] at hk
    cases hk
  · intro s hs
    obtain ⟨c, hc, hr⟩ := reach1_via_seed g root s hs
    exact Or.inr ⟨c, hc, hr⟩

/-- Every score in the top-level scored list of recursive_minimax is a
defined recursive score, hence 1 or -1. -/
theorem scored_values {S M K : Type} (g : GameI S M K) (p : Player)
    (fuel : Nat) (state : S) (scored : List (M × Int))
    (hsc : map_option (fun m => (recursive_minimax_scores g p fuel
        (g.apply state m)).map (fun v => (m, v))) (g.moves state) =
      some scored) :
    ∀ x ∈ scored, x.2 = 1 ∨ x.2 = -1 := by
  intro x hx
  obtain ⟨m, _, hm⟩ := map_option_mem _ _ _ hsc x hx
  cases hw : recursive_minimax_scores g p fuel (g.apply state m) with
  | none => rw [hw] at hm; cases hm
  | some w =>
    rw [hw, Option.map_some'] at hm
    cases hm
    exact rms_values g p fuel (g.apply state m) w hw

/-- recursive_minimax returns the first move of enumeration order whose
child score attains the maximum. -/
theorem recursive_minimax_first_max {S M K : Type} (g : GameI S M K)
    (fuel : Nat) (state : S) (scored : List (M × Int)) (Mx : Int)
    (hsc : map_option (fun m => (recursive_minimax_scores g (g.player state)
        fuel (g.apply state m)).map (fun v => (m, v))) (g.moves state) =
      some scored)
    (hmax : (scored.map Prod.snd).max? = some Mx) :
    recursive_minimax g fuel state =
      (scored.find? (fun ms => ms.2 == Mx)).map Prod.fst := by
  have hgt : -2 < Mx := by
    obtain ⟨hmem, -⟩ := int_max?_eq_some_iff.1 hmax
    obtain ⟨x, hx, hxv⟩ := List.mem_map.1 hmem
    rcases scored_values g (g.player state) fuel state scored hsc x hx with
      h1 | h1 <;> omega
  unfold recursive_minimax
  simp only [hsc, bind_some_eq]
  exact select_best_eq_find scored Mx hmax hgt

/-- C1: On a game whose transition graph from a non-terminal root is
acyclic (witnessed by a height certificate), terminates in terminal
states, and has injective state identities, the iterative engine's while
loop reaches its crashing pop once given enough fuel, and the memo table
at that instant holds exactly the recursive scores
recursive_minimax_scores(game, state, player) for every reachable state
— the claimed score agreement is real; but the claimed behavioural
equivalence fails completely: the recursive engine returns a move
attaining the maximal child score while the iterative engine returns no
move at all (its loop guard reads the stale stack_length, so the loop
exits only by raising IndexError on the drained stack and the selection
code is unreachable). -/
theorem iterative_memo_matches_recursive_scores {S M K : Type}
    [DecidableEq K] (g : GameI S M K) (root : S) (h : S → Nat)
    (A : EngineAssumptions g root h) (hov : g.is_over root = false) :
    ∃ fuel₀ : Nat, ∀ fuel : Nat, fuel₀ ≤ fuel →
    ∃ (es : List (K × Int)) (scored : List (M × Int)) (Mx : Int),
      iterative_minimax_crash_memo g fuel root = some es ∧
      (∀ s, Reach1 g root s →
        es.lookup (g.key s) =
          recursive_minimax_scores g (g.player root) (h s + 1) s) ∧
      map_option (fun m => (recursive_minimax_scores g (g.player root)
          (h root) (g.apply root m)).map (fun v => (m, v)))
        (g.moves root) = some scored ∧
      (scored.map Prod.snd).max? = some Mx ∧
      (∃ mr, recursive_minimax g (h root) root = some mr ∧
        (mr, Mx) ∈ scored) ∧
      iterative_minimax_strategy g fuel root = none := by
  obtain ⟨f₀, es, hloop0, hms, hcomp⟩ := loop_correct g (g.player root)
    root h A (Ucount g root h []) (nuM g root h (children g root) [])
    (children g root) [] (init_inv g (g.player root) root h) rfl
    (le_refl _)
  refine ⟨f₀, fun fuel hfuel => ?_⟩
  have hloopf : iter_loop g (g.player root) fuel (children g root) [] =
      some es :=
    iter_loop_mono g (g.player root) f₀ (children g root) [] es hloop0
      fuel hfuel
  have memoeq : ∀ s, Reach1 g root s → es.lookup (g.key s) =
      recursive_minimax_scores g (g.player root) (h s + 1) s := by
    intro s hs
    obtain ⟨w, hw⟩ := Option.isSome_iff_exists.1 (hcomp s hs)
    rw [hw]
    exact (hms s w (Or.inr hs) hw).symm
  have hmv : g.moves root ≠ [] := A.hnt root (Or.inl rfl) hov
  have hns : ∀ m ∈ g.moves root,
      recursive_minimax_scores g (g.player root) (h root) (g.apply root m) =
        some ((recursive_minimax_scores g (g.player root) (h root)
          (g.apply root m)).getD 0) := by
    intro m hm
    have hcm : g.apply root m ∈ children g root := List.mem_map_of_mem _ hm
    have hrc : Reach g root (g.apply root m) := Or.inr (Reach1.seed hcm)
    obtain ⟨w, hw⟩ := rms_defined g (g.player root) root h A.hdec A.hnt
      (h (g.apply root m)) (g.apply root m) rfl hrc
    have hw' := rms_mono g (g.player root) _ _ w hw (h root)
      (by have := A.hdec root (Or.inl rfl) _ hcm; omega)
    rw [hw']
    rfl
  have hsc : map_option (fun m => (recursive_minimax_scores g
      (g.player root) (h root) (g.apply root m)).map (fun v => (m, v)))
      (g.moves root) = some ((g.moves root).map (fun m =>
        (m, (recursive_minimax_scores g (g.player root) (h root)
          (g.apply root m)).getD 0))) := by
    refine map_option_eq_map _ _ _ (fun m hm => ?_)
    rw [hns m hm]
    rfl
  have hkeys : ((g.moves root).map (fun m =>
      (m, (recursive_minimax_scores g (g.player root) (h root)
        (g.apply root m)).getD 0))).map Prod.snd =
      (g.moves root).map (fun m => (recursive_minimax_scores g
        (g.player root) (h root) (g.apply root m)).getD 0) := by
    rw [List.map_map]
    rfl
  have hkne : ((g.moves root).map (fun m =>
      (m, (recursive_minimax_scores g (g.player root) (h root)
        (g.apply root m)).getD 0))).map Prod.snd ≠ [] := by
    rw [hkeys]
    intro h0
    exact hmv (List.map_eq_nil_iff.1 h0)
  obtain ⟨Mx, hmax⟩ : ∃ Mx, (((g.moves root).map (fun m =>
      (m, (recursive_minimax_scores g (g.player root) (h root)
        (g.apply root m)).getD 0))).map Prod.snd).max? = some Mx := by
    cases hm0 : (((g.moves root).map (fun m =>
        (m, (recursive_minimax_scores g (g.player root) (h root)
          (g.apply root m)).getD 0))).map Prod.snd).max? with
    | none => exact absurd (List.max?_eq_none_iff.1 hm0) hkne
    | some a => exact ⟨a, rfl⟩
  refine ⟨es, _, Mx, ?_, memoeq, hsc, hmax, ?_, ?_⟩
  · unfold iterative_minimax_crash_memo
    exact hloopf
  · -- recursive engine: first best move
    have hrec := recursive_minimax_first_max g (h root) root _ Mx hsc hmax
    obtain ⟨hMmem, -⟩ := int_max?_eq_some_iff.1 hmax
    obtain ⟨x, hx, hxv⟩ := List.mem_map.1 hMmem
    have hfind : ∃ ms, ((g.moves root).map (fun m =>
        (m, (recursive_minimax_scores g (g.player root) (h root)
          (g.apply root m)).getD 0))).find? (fun ms => ms.2 == Mx) =
        some ms := by
      refine Option.isSome_iff_exists.1 (List.find?_isSome.2 ⟨x, hx, ?_⟩)
      exact beq_iff_eq.2 hxv
    obtain ⟨ms, hfs⟩ := hfind
    have hms2 : ms.2 = Mx := by
      have hp := @List.find?_some (M × Int) (fun ms => ms.2 == Mx) ms _ hfs
      exact beq_iff_eq.1 hp
    have hmsmem := List.mem_of_find?_eq_some hfs
    refine ⟨ms.1, ?_, ?_⟩
    · rw [hrec, hfs]
      rfl
    · have : (ms.1, Mx) = ms := by
        rw [← hms2]
      exact this ▸ hmsmem
  · exact iterative_strategy_none_of_moves g fuel root hmv

/-- Every possible subtract-square move is a positive value not exceeding
the current number. -/
theorem ss_moves_bound (s : SubtractSquareGameState) :
    ∀ m ∈ s.get_possible_moves, 1 ≤ m ∧ m ≤ s.number := by
  intro m hm
  unfold SubtractSquareGameState.get_possible_moves at hm
  obtain ⟨i, -, hi⟩ := List.mem_filterMap.1 hm
  by_cases hc : 1 ≤ i ∧ ((i : Int) * i ≤ s.number)
  · rw [if_pos hc] at hi
    cases hi
    obtain ⟨h1, h2⟩ := hc
    have h1' : (1 : Int) ≤ (i : Int) := by exact_mod_cast h1
    constructor
    · nlinarith
    · exact h2
  · rw [if_neg hc] at hi
    cases hi

/-- The height certificate of subtract-square: every move strictly
decreases the (clamped) current value. -/
theorem ss_children_dec (s : SubtractSquareGameState) :
    ∀ c ∈ children subtractSquare s, c.number.toNat < s.number.toNat := by
  intro c hc
  obtain ⟨m, hm, rfl⟩ := List.mem_map.1 hc
  obtain ⟨h1, h2⟩ := ss_moves_bound s m hm
  show (s.number - m).toNat < s.number.toNat
  omega

/-- A terminal subtract-square state has no moves. -/
theorem ss_over_moves (s : SubtractSquareGameState)
    (h : subtractSquare.is_over s = true) : subtractSquare.moves s = [] := by
  have h' : s.get_possible_moves.length = 0 := by
    have := h
    unfold subtractSquare SubtractSquareGame.is_over at this
    simpa using this
  exact List.length_eq_zero.1 h'

/-- A non-terminal subtract-square state has at least one move. -/
theorem ss_not_over_moves (s : SubtractSquareGameState)
    (h : subtractSquare.is_over s = false) : subtractSquare.moves s ≠ [] := by
  have h' : ¬ s.get_possible_moves.length = 0 := by
    have := h
    unfold subtractSquare SubtractSquareGame.is_over at this
    simpa using this
  intro h0
  exact h' (by rw [show subtractSquare.moves s = s.get_possible_moves from rfl] at h0; rw [h0]; rfl)

/-- The two states reachable from the subtract-square root of value 1. -/
theorem ss_root1_descend :
    descend_list subtractSquare
      ((fun s : SubtractSquareGameState => s.number.toNat) ⟨.p1, 1⟩)
      ⟨.p1, 1⟩ = [⟨.p1, 1⟩, ⟨.p2, 0⟩] := by decide

/-- State identities are injective on the states reachable from the
subtract-square root of value 1. -/
theorem ss_root1_key_inj :
    ∀ s t, Reach subtractSquare ⟨.p1, 1⟩ s → Reach subtractSquare ⟨.p1, 1⟩ t →
    subtractSquare.key s = subtractSquare.key t → s = t := by
  intro s t hs ht hk
  have hs' := reach_mem_descend subtractSquare ⟨.p1, 1⟩
    (fun s => s.number.toNat) (fun s _ c hc => ss_children_dec s c hc) s hs
  have ht' := reach_mem_descend subtractSquare ⟨.p1, 1⟩
    (fun s => s.number.toNat) (fun s _ c hc => ss_children_dec s c hc) t ht
  rw [ss_root1_descend] at hs' ht'
  rcases List.mem_cons.1 hs' with rfl | hs'' <;>
    [skip; rcases List.mem_cons.1 hs'' with rfl | hs''']
  · rcases List.mem_cons.1 ht' with rfl | ht'' <;>
      [skip; rcases List.mem_cons.1 ht'' with rfl | ht''']
    · rfl
    · exact absurd hk (by decide)
    · cases ht'''
  · rcases List.mem_cons.1 ht' with rfl | ht'' <;>
      [skip; rcases List.mem_cons.1 ht'' with rfl | ht''']
    · exact absurd hk (by decide)
    · rfl
    · cases ht'''
  · cases hs'''

/-- The height certificate used for subtract-square instantiations. -/
def ss_height (s : SubtractSquareGameState) : Nat := s.number.toNat

/-- Witness: the engine-equivalence statement instantiated at the
subtract-square root of value 1 with p1 to move. -/
theorem iterative_memo_matches_recursive_scores_witness :
    ∃ fuel₀ : Nat, ∀ fuel : Nat, fuel₀ ≤ fuel →
    ∃ (es : List (String × Int)) (scored : List (Int × Int)) (Mx : Int),
      iterative_minimax_crash_memo subtractSquare fuel ⟨.p1, 1⟩ = some es ∧
      (∀ s, Reach1 subtractSquare ⟨.p1, 1⟩ s →
        es.lookup (subtractSquare.key s) =
          recursive_minimax_scores subtractSquare
            (subtractSquare.player ⟨.p1, 1⟩) (ss_height s + 1) s) ∧
      map_option (fun m => (recursive_minimax_scores subtractSquare
          (subtractSquare.player ⟨.p1, 1⟩) (ss_height ⟨.p1, 1⟩)
          (subtractSquare.apply ⟨.p1, 1⟩ m)).map (fun v => (m, v)))
        (subtractSquare.moves ⟨.p1, 1⟩) = some scored ∧
      (scored.map Prod.snd).max? = some Mx ∧
      (∃ mr, recursive_minimax subtractSquare (ss_height ⟨.p1, 1⟩)
        ⟨.p1, 1⟩ = some mr ∧ (mr, Mx) ∈ scored) ∧
      iterative_minimax_strategy subtractSquare fuel ⟨.p1, 1⟩ = none :=
  iterative_memo_matches_recursive_scores subtractSquare ⟨.p1, 1⟩ ss_height
    ⟨ss_root1_key_inj, fun s _ c hc => ss_children_dec s c hc,
      fun s _ => ss_over_moves s, fun s _ => ss_not_over_moves s⟩
    (by decide)

/-- Counterexample to C1's behavioural equivalence: from the
subtract-square value 5 with p1 to move (an acyclic game terminating in
terminal states, both children scoring -1) the recursive engine returns
the move 1, but the iterative engine returns no move at all — its loop
guard reads the stale stack_length, so after the memo fills and the
stack drains, the next pop raises IndexError and the selection code is
never reached. -/
theorem engines_disagree_on_tied_moves :
    recursive_minimax subtractSquare 6 ⟨.p1, 5⟩ = some 1 ∧
    iterative_minimax_strategy subtractSquare 500 ⟨.p1, 5⟩ = none ∧
    recursive_minimax_scores subtractSquare .p1 6 ⟨.p2, 4⟩ = some (-1) ∧
    recursive_minimax_scores subtractSquare .p1 6 ⟨.p2, 1⟩ = some (-1) := by
  exact ⟨by decide, by decide, by decide, by decide⟩

/-- C2: the claimed common first-enumeration tie-break holds for ONE
engine only, and the other returns nothing: given the evaluated
(move, score) list, recursive_minimax returns the first move attaining
the maximal child score (its selection loop updates only on strictly
greater scores); but iterative_minimax_strategy never returns any move
when moves exist — the stale stack_length keeps its loop condition true,
the loop exits only by IndexError from the drained-stack pop, and the
moves.sort()/moves[-1] selection of the last two lines is unreachable. -/
theorem tie_break_first_for_recursive_none_for_iterative {S M K : Type}
    [DecidableEq K] (g : GameI S M K) (fuel fuel' : Nat) (state : S)
    (scored : List (M × Int)) (Mx : Int)
    (hsc : map_option (fun m => (recursive_minimax_scores g
        (g.player state) fuel (g.apply state m)).map (fun v => (m, v)))
      (g.moves state) = some scored)
    (hmax : (scored.map Prod.snd).max? = some Mx) :
    recursive_minimax g fuel state =
      (scored.find? (fun ms => ms.2 == Mx)).map Prod.fst ∧
    iterative_minimax_strategy g fuel' state = none := by
  refine ⟨recursive_minimax_first_max g fuel state scored Mx hsc hmax, ?_⟩
  have hsne : scored ≠ [] := by
    intro h0
    rw [h0] at hmax
    cases hmax
  have hmv : g.moves state ≠ [] := by
    intro h0
    have hlen := map_option_length _ _ _ hsc
    rw [h0] at hlen
    exact hsne (List.length_eq_zero.1 hlen)
  exact iterative_strategy_none_of_moves g fuel' state hmv

/-- Witness: the tie-break characterization instantiated at the
subtract-square root of value 2 (a single legal move, scores computed
concretely). -/
theorem tie_break_first_none_witness :
    recursive_minimax subtractSquare 2 ⟨.p1, 2⟩ =
      (([((1 : Int), (-1 : Int))].find? (fun ms => ms.2 == -1)).map
        Prod.fst) ∧
    iterative_minimax_strategy subtractSquare 5 ⟨.p1, 2⟩ = none :=
  tie_break_first_for_recursive_none_for_iterative subtractSquare 2 5
    ⟨.p1, 2⟩ [(1, -1)] (-1) (by decide) (by decide)

/-- Counterexample to C2: from subtract-square value 10 with p1 to move
all three moves 1, 4, 9 tie at the maximal child score -1 and the
first-enumerated best move is 1; the recursive engine returns it, but the
iterative engine returns no move at all (IndexError at the drained-stack
pop), so it does not select the first-enumerated best move. -/
theorem iterative_returns_no_move_on_ties :
    SubtractSquareGameState.get_possible_moves ⟨.p1, 10⟩ = [1, 4, 9] ∧
    recursive_minimax_scores subtractSquare .p1 10 ⟨.p2, 9⟩ = some (-1) ∧
    recursive_minimax_scores subtractSquare .p1 10 ⟨.p2, 6⟩ = some (-1) ∧
    recursive_minimax_scores subtractSquare .p1 10 ⟨.p2, 1⟩ = some (-1) ∧
    recursive_minimax subtractSquare 10 ⟨.p1, 10⟩ = some 1 ∧
    iterative_minimax_strategy subtractSquare 500 ⟨.p1, 10⟩ = none := by
  exact ⟨by decide, by decide, by decide, by decide, by decide, by decide⟩

/-- A subtract-square value is a losing position when exhaustive search
scores the position, from the perspective of its own mover, as LOSE. -/
def ssLosing (n : Int) : Bool :=
  recursive_minimax_scores subtractSquare .p1 (n.toNat + 1) ⟨.p1, n⟩ ==
    some (-1)

set_option maxRecDepth 400000 in
/-- C6: from value 20 with p1 to move the legal moves are exactly
[1, 4, 9, 16], and the precomputed losing positions 0, 2, 5, 7, 10 (and
20 itself) are confirmed losing — but because 20 is itself a losing
position, NO move from 20 leaves the opponent a losing residual value,
so the claimed selection property is unsatisfiable there; moreover the
engines cannot agree: the recursive engine picks move 1 while the
iterative engine returns no move at all for any fuel (IndexError at the
drained-stack pop, the selection code being unreachable). -/
theorem subtract_square_value20_amended :
    SubtractSquareGameState.get_possible_moves ⟨.p1, 20⟩ = [1, 4, 9, 16] ∧
    ssLosing 0 = true ∧ ssLosing 2 = true ∧ ssLosing 5 = true ∧
    ssLosing 7 = true ∧ ssLosing 10 = true ∧ ssLosing 20 = true ∧
    (SubtractSquareGameState.get_possible_moves ⟨.p1, 20⟩).all
      (fun m => !(ssLosing (20 - m))) = true ∧
    recursive_minimax subtractSquare 20 ⟨.p1, 20⟩ = some 1 ∧
    ∀ fuel, iterative_minimax_strategy subtractSquare fuel ⟨.p1, 20⟩ =
      none := by
  exact ⟨by decide, by decide, by decide, by decide, by decide, by decide,
    by decide, by decide, by decide,
    fun fuel => iterative_strategy_none_of_moves subtractSquare fuel
      ⟨.p1, 20⟩ (by decide)⟩

set_option maxRecDepth 400000 in
/-- Counterexample to C6 as stated: the recursive engine selects move 1,
whose residual 19 is not a losing position, and the iterative engine
selects nothing at all (it dies with IndexError before its selection
code), so the engines do not agree and no selected move leaves a losing
residual. -/
theorem subtract_square_value20_counterexample :
    recursive_minimax subtractSquare 20 ⟨.p1, 20⟩ = some 1 ∧
    ssLosing (20 - 1) = false ∧
    iterative_minimax_strategy subtractSquare 5000 ⟨.p1, 20⟩ = none := by
  exact ⟨by decide, by decide,
    iterative_strategy_none_of_moves subtractSquare 5000 ⟨.p1, 20⟩
      (by decide)⟩
